import Mathlib

/-!
Verification of the action-catalog engine of the `holdedcli` repository
(`internal/actions/catalog.go`), as a shallow embedding in Lean 4.

Go strings are modelled as Lean `String`s (lists of characters); Go byte-wise
operations coincide with the character-wise model on the ASCII inputs the
catalog manipulates.  Go's `sort.Slice`/`sort.Strings` (which sort by a total
order, so the result is independent of the initial order) are modelled with
`List.insertionSort`.  Fallible functions return `Except`/`Option`.
-/

namespace HoldedCatalog

/-! ## Character and string primitives (models of `strings.TrimSpace`,
`strings.ToLower`, `strings.Trim(_, "-")`, `strings.EqualFold`) -/

/-- Whitespace as recognized by `strings.TrimSpace` (ASCII part). -/
def isWS (c : Char) : Bool :=
  c = ' ' || c = '\t' || c = '\n' || c = '\r' || c = Char.ofNat 11 || c = Char.ofNat 12

/-- `strings.TrimSpace` on the character list. -/
def trimChars (l : List Char) : List Char :=
  ((l.dropWhile isWS).reverse.dropWhile isWS).reverse

/-- `strings.TrimSpace`. -/
def trimString (s : String) : String := ⟨trimChars s.data⟩

/-- `strings.ToLower` on one character (ASCII case mapping). -/
def lowerChar (c : Char) : Char :=
  if 'A' ≤ c ∧ c ≤ 'Z' then Char.ofNat (c.toNat + 32) else c

/-- `strings.ToLower`. -/
def lowerString (s : String) : String := ⟨s.data.map lowerChar⟩

/-- The character class `[a-z0-9]` of the `slugCleaner` regular expression. -/
def isSlugChar (c : Char) : Bool :=
  ('a' ≤ c && c ≤ 'z') || ('0' ≤ c && c ≤ '9')

/-- `slugCleaner.ReplaceAllString(value, "-")`: every maximal run of
characters outside `[a-z0-9]` is replaced by a single hyphen.  The boolean
state records whether the previous character belonged to such a run. -/
def collapseAux : List Char → Bool → List Char
  | [], _ => []
  | c :: rest, inRun =>
    if isSlugChar c then c :: collapseAux rest false
    else if inRun then collapseAux rest true
    else '-' :: collapseAux rest true

/-- `strings.Trim(value, "-")` on the character list. -/
def trimHyphens (l : List Char) : List Char :=
  ((l.dropWhile (· = '-')).reverse.dropWhile (· = '-')).reverse

/-- `normalizeToken` from `catalog.go`: lower-case and trim, collapse runs of
non-alphanumerics to hyphens, trim hyphens. -/
def normalizeToken (value : String) : String :=
  ⟨trimHyphens (collapseAux ((trimChars value.data).map lowerChar) false)⟩

/-! ## Decimal rendering (model of `fmt.Sprintf("%d", n)`)

Structural recursion on a fuel argument (the number itself suffices as fuel,
since the value shrinks by a factor of ten each step). -/

/-- One decimal digit character. -/
def digitChar (d : Nat) : Char :=
  if d = 0 then '0' else if d = 1 then '1' else if d = 2 then '2'
  else if d = 3 then '3' else if d = 4 then '4' else if d = 5 then '5'
  else if d = 6 then '6' else if d = 7 then '7' else if d = 8 then '8' else '9'

/-- Decimal digits of `n`, most significant first; `fuel` bounds the
recursion depth (`n ≤ fuel` is enough). -/
def decDigitsAux : Nat → Nat → List Char
  | 0, n => [digitChar n]
  | fuel + 1, n =>
    if n < 10 then [digitChar n]
    else decDigitsAux fuel (n / 10) ++ [digitChar (n % 10)]

/-- Decimal digit string of a natural number, as printed by Go's `%d`. -/
def natRepr (n : Nat) : String := ⟨decDigitsAux n n⟩

/-! ## The data model (`Action`, `ActionParameter`, `ActionRequestBody`,
`ActionBodyField`, `Catalog`) -/

/-- `ActionParameter` from `catalog.go`. -/
structure ActionParameter where
  name : String
  in_loc : String
  required : Bool
  type : String
  description : String
  enum : List String
deriving DecidableEq, Repr

mutual
/-- `ActionBodyField` (one request-body field).  The implementation is absent
from the checked-out source (only its tests remain); the shape is the one the
tests construct: name, required flag, type tag, optional nested item. -/
inductive ActionBodyField where
  | mk (name : String) (required : Bool) (type : String)
      (item : Option ActionBodyItem)

/-- The nested element/object shape of an `object` or `array[object]` field. -/
inductive ActionBodyItem where
  | mk (type : String) (fields : List ActionBodyField)
end

def ActionBodyField.name : ActionBodyField → String | .mk n _ _ _ => n
def ActionBodyField.required : ActionBodyField → Bool | .mk _ r _ _ => r
def ActionBodyField.type : ActionBodyField → String | .mk _ _ t _ => t
def ActionBodyField.item : ActionBodyField → Option ActionBodyItem | .mk _ _ _ i => i
def ActionBodyItem.type : ActionBodyItem → String | .mk t _ => t
def ActionBodyItem.fields : ActionBodyItem → List ActionBodyField | .mk _ f => f

/-- `ActionRequestBody` from `catalog.go`, extended with the `Fields` member
that the tests of the newer parser exercise. -/
structure ActionRequestBody where
  required : Bool
  contentTypes : List String
  fields : List ActionBodyField

/-- `Action` from `catalog.go`. -/
structure Action where
  id : String
  api : String
  operationId : String
  method : String
  path : String
  summary : String
  description : String
  parameters : List ActionParameter
  requestBody : Option ActionRequestBody

/-- `Catalog` from `catalog.go` (the `generated_at` timestamp is a wall-clock
value with no logical content and is omitted). -/
structure Catalog where
  source : String
  actions : List Action

/-! ## String comparison and sorting (models of Go's `<` on strings and of
`sort.Slice` / `sort.Strings`) -/

/-- Lexicographic strict comparison of character lists (Go compares strings
byte-wise; on the catalog's ASCII data this is the same order). -/
def charListLt : List Char → List Char → Bool
  | [], [] => false
  | [], _ :: _ => true
  | _ :: _, [] => false
  | a :: as, b :: bs => if a < b then true else if b < a then false else charListLt as bs

/-- Go's `s < t` on strings. -/
def strLt (s t : String) : Bool := charListLt s.data t.data

/-- Go's `s <= t` on strings. -/
def strLe (s t : String) : Bool := !(strLt t s)

theorem charListLt_trichotomy : ∀ a b : List Char,
    charListLt a b = true ∨ a = b ∨ charListLt b a = true
  | [], [] => .inr (.inl rfl)
  | [], _ :: _ => .inl rfl
  | _ :: _, [] => .inr (.inr rfl)
  | a :: as, b :: bs => by
    rcases lt_trichotomy a b with h | h | h
    · exact .inl (by simp [charListLt, h])
    · subst h
      rcases charListLt_trichotomy as bs with h' | h' | h'
      · exact .inl (by simp [charListLt, h'])
      · exact .inr (.inl (by rw [h']))
      · exact .inr (.inr (by simp [charListLt, h']))
    · refine .inr (.inr ?_)
      simp [charListLt, h, not_lt_of_gt h]

theorem charListLt_asymm : ∀ a b : List Char,
    charListLt a b = true → charListLt b a = false
  | [], [], h => by simp [charListLt] at h
  | [], _ :: _, _ => by simp [charListLt]
  | _ :: _, [], h => by simp [charListLt] at h
  | a :: as, b :: bs, h => by
    rcases lt_trichotomy a b with hc | hc | hc
    · simp [charListLt, not_lt_of_gt hc, hc]
    · subst hc
      simp only [charListLt, lt_irrefl, if_false] at h ⊢
      exact charListLt_asymm as bs h
    · simp [charListLt, hc, not_lt_of_gt hc] at h

theorem charListLt_trans : ∀ a b c : List Char,
    charListLt a b = true → charListLt b c = true → charListLt a c = true
  | [], [], [] => by simp [charListLt]
  | [], _ :: _, [] => by simp [charListLt]
  | [], _, _ :: _ => by simp [charListLt]
  | _ :: _, [], _ => by simp [charListLt]
  | _ :: _, _ :: _, [] => by simp [charListLt]
  | a :: as, b :: bs, c :: cs => by
    intro h1 h2
    rcases lt_trichotomy a b with hab | hab | hab
    · rcases lt_trichotomy b c with hbc | hbc | hbc
      · simp [charListLt, hab.trans hbc]
      · subst hbc; simp [charListLt, hab]
      · simp [charListLt, hbc, not_lt_of_gt hbc] at h2
    · subst hab
      rcases lt_trichotomy a c with hac | hac | hac
      · simp [charListLt, hac]
      · subst hac
        simp only [charListLt, lt_irrefl, if_false] at h1 h2 ⊢
        exact charListLt_trans as bs cs h1 h2
      · simp [charListLt, hac, not_lt_of_gt hac] at h2
    · simp [charListLt, hab, not_lt_of_gt hab] at h1

theorem strLe_total (a b : String) : strLe a b = true ∨ strLe b a = true := by
  unfold strLe
  by_cases h : strLt b a = true
  · have := charListLt_asymm b.data a.data h
    right
    simp [strLt] at h ⊢
    simp [this]
  · left; simp [h]

theorem strLe_trans {a b c : String} (h1 : strLe a b = true) (h2 : strLe b c = true) :
    strLe a c = true := by
  unfold strLe strLt at *
  simp only [Bool.not_eq_true'] at h1 h2 ⊢
  by_contra hca
  have hca' : charListLt c.data a.data = true := by
    cases h : charListLt c.data a.data
    · exact absurd h hca
    · rfl
  rcases charListLt_trichotomy a.data b.data with h | h | h
  · have := charListLt_trans c.data a.data b.data hca' h
    rw [this] at h2; exact Bool.noConfusion h2
  · rw [← h] at h2; rw [h2] at hca'; exact Bool.noConfusion hca'
  · rw [h] at h1; exact Bool.noConfusion h1

/-- The ordering used by `LoadCatalog`'s `sort.Slice`: by api, then path,
then method, then operation id. -/
def actionLe (a b : Action) : Prop :=
  strLt a.api b.api = true ∨ (a.api = b.api ∧ (strLt a.path b.path = true ∨ (a.path = b.path ∧
    (strLt a.method b.method = true ∨ (a.method = b.method ∧
      strLe a.operationId b.operationId = true)))))

instance : DecidableRel actionLe := fun _ _ => by unfold actionLe; infer_instance

theorem strLt_irrefl (a : String) : strLt a a = false := by
  cases h : strLt a a
  · rfl
  · exact absurd h (by simpa using charListLt_asymm a.data a.data h)

theorem strLt_of_not_lt_of_ne {a b : String} (h : ¬ strLt a b = true) (hne : a ≠ b) :
    strLt b a = true := by
  rcases charListLt_trichotomy a.data b.data with h' | h' | h'
  · exact absurd h' h
  · exact absurd (String.ext h') hne
  · exact h'

instance : IsTotal Action actionLe where
  total a b := by
    unfold actionLe
    by_cases h1 : strLt a.api b.api = true
    · exact .inl (.inl h1)
    by_cases e1 : a.api = b.api
    case neg => exact .inr (.inl (strLt_of_not_lt_of_ne h1 e1))
    by_cases h2 : strLt a.path b.path = true
    · exact .inl (.inr ⟨e1, .inl h2⟩)
    by_cases e2 : a.path = b.path
    case neg => exact .inr (.inr ⟨e1.symm, .inl (strLt_of_not_lt_of_ne h2 e2)⟩)
    by_cases h3 : strLt a.method b.method = true
    · exact .inl (.inr ⟨e1, .inr ⟨e2, .inl h3⟩⟩)
    by_cases e3 : a.method = b.method
    case neg => exact .inr (.inr ⟨e1.symm, .inr ⟨e2.symm, .inl (strLt_of_not_lt_of_ne h3 e3)⟩⟩)
    rcases strLe_total a.operationId b.operationId with h4 | h4
    · exact .inl (.inr ⟨e1, .inr ⟨e2, .inr ⟨e3, h4⟩⟩⟩)
    · exact .inr (.inr ⟨e1.symm, .inr ⟨e2.symm, .inr ⟨e3.symm, h4⟩⟩⟩)

theorem strLt_trans {a b c : String} (h1 : strLt a b = true) (h2 : strLt b c = true) :
    strLt a c = true := charListLt_trans a.data b.data c.data h1 h2

instance : IsTrans Action actionLe where
  trans a b c hab hbc := by
    unfold actionLe at *
    rcases hab with h | ⟨h, hab⟩
    · rcases hbc with h' | ⟨h', _⟩
      · exact .inl (strLt_trans h h')
      · exact .inl (h' ▸ h)
    · rcases hbc with h' | ⟨h', hbc⟩
      · exact .inl (h ▸ h')
      · refine .inr ⟨h.trans h', ?_⟩
        rcases hab with h2 | ⟨h2, hab⟩
        · rcases hbc with h2' | ⟨h2', _⟩
          · exact .inl (strLt_trans h2 h2')
          · exact .inl (h2' ▸ h2)
        · rcases hbc with h2' | ⟨h2', hbc⟩
          · exact .inl (h2 ▸ h2')
          · refine .inr ⟨h2.trans h2', ?_⟩
            rcases hab with h3 | ⟨h3, hab⟩
            · rcases hbc with h3' | ⟨h3', _⟩
              · exact .inl (strLt_trans h3 h3')
              · exact .inl (h3' ▸ h3)
            · rcases hbc with h3' | ⟨h3', hbc⟩
              · exact .inl (h3 ▸ h3')
              · exact .inr ⟨h3.trans h3', strLe_trans hab hbc⟩

/-- The `sort.Slice` call of `LoadCatalog`. -/
def sortActions (l : List Action) : List Action := List.insertionSort actionLe l

/-- The order relation of `sort.Strings`. -/
def strOrd (a b : String) : Prop := strLe a b = true

instance : DecidableRel strOrd := fun _ _ => by unfold strOrd; infer_instance

instance : IsTotal String strOrd := ⟨strLe_total⟩

instance : IsTrans String strOrd := ⟨fun _ _ _ => strLe_trans⟩

/-- `sort.Strings`. -/
def sortStrings (l : List String) : List String :=
  List.insertionSort strOrd l

/-! ## `ensureUniqueIDs` -/

/-- The loop of `ensureUniqueIDs`: `seen` collects the base ids already
processed (the Go code keeps a `map[string]int` of occurrence counts; here
the multiset of previously seen ids plays that role, `seen.count id + 1`
being the counter value after the increment). -/
def ensureUniqueIDsAux : List String → List Action → List Action
  | _, [] => []
  | seen, a :: rest =>
    let k := seen.count a.id + 1
    (if k = 1 then a else { a with id := a.id ++ "-" ++ natRepr k })
      :: ensureUniqueIDsAux (a.id :: seen) rest

/-- `ensureUniqueIDs` from `catalog.go`. -/
def ensureUniqueIDs (actions : List Action) : List Action :=
  ensureUniqueIDsAux [] actions

/-! ## Facts about the decimal rendering -/

/-- Numeric value of a decimal digit character. -/
def digitVal (c : Char) : Nat :=
  if c = '0' then 0 else if c = '1' then 1 else if c = '2' then 2
  else if c = '3' then 3 else if c = '4' then 4 else if c = '5' then 5
  else if c = '6' then 6 else if c = '7' then 7 else if c = '8' then 8 else 9

/-- Decimal value of a digit list, most significant first. -/
def fromDigits (l : List Char) : Nat :=
  l.foldl (fun a c => a * 10 + digitVal c) 0

theorem digitChar_ne_hyphen (d : Nat) : digitChar d ≠ '-' := by
  unfold digitChar; split_ifs <;> decide

theorem digitVal_digitChar {d : Nat} (h : d < 10) : digitVal (digitChar d) = d := by
  interval_cases d <;> decide

theorem foldl_val_append (l : List Char) (c : Char) (a : Nat) :
    List.foldl (fun a c => a * 10 + digitVal c) a (l ++ [c]) =
      (List.foldl (fun a c => a * 10 + digitVal c) a l) * 10 + digitVal c := by
  rw [List.foldl_append]; rfl

theorem fromDigits_decDigitsAux {fuel n : Nat} (h : n ≤ fuel) :
    fromDigits (decDigitsAux fuel n) = n := by
  induction fuel generalizing n with
  | zero =>
    have : n = 0 := Nat.le_zero.mp h
    subst this; simp [decDigitsAux, fromDigits, digitVal, digitChar]
  | succ fuel ih =>
    by_cases h10 : n < 10
    · simp only [decDigitsAux, if_pos h10, fromDigits, List.foldl_cons, List.foldl_nil]
      rw [digitVal_digitChar h10]; omega
    · have hrec : n / 10 ≤ fuel := by omega
      simp only [decDigitsAux, if_neg h10, fromDigits, foldl_val_append]
      have := ih hrec
      unfold fromDigits at this
      rw [this, digitVal_digitChar (Nat.mod_lt _ (by omega))]
      omega

theorem natRepr_injective : Function.Injective natRepr := by
  intro a b h
  have hd : decDigitsAux a a = decDigitsAux b b := by
    simpa [natRepr, String.ext_iff] using h
  have := fromDigits_decDigitsAux (Nat.le_refl a)
  rw [hd, fromDigits_decDigitsAux (Nat.le_refl b)] at this
  exact this.symm

theorem decDigitsAux_ne_hyphen {fuel n : Nat} : ∀ c ∈ decDigitsAux fuel n, c ≠ '-' := by
  induction fuel generalizing n with
  | zero => simpa [decDigitsAux] using digitChar_ne_hyphen n
  | succ fuel ih =>
    intro c hc
    by_cases h10 : n < 10
    · simp only [decDigitsAux, if_pos h10, List.mem_singleton] at hc
      exact hc ▸ digitChar_ne_hyphen n
    · simp only [decDigitsAux, if_neg h10, List.mem_append, List.mem_singleton] at hc
      rcases hc with hc | hc
      · exact ih c hc
      · exact hc ▸ digitChar_ne_hyphen _

theorem decDigitsAux_ne_nil {fuel n : Nat} : decDigitsAux fuel n ≠ [] := by
  cases fuel with
  | zero => simp [decDigitsAux]
  | succ fuel =>
    by_cases h10 : n < 10 <;> simp [decDigitsAux, h10]

/-- Splitting a string of the shape `base ++ "-" ++ digits` is unambiguous
when the digit part contains no hyphen. -/
theorem append_hyphen_inj :
    ∀ (x1 x2 y1 y2 : List Char), (∀ c ∈ y1, c ≠ '-') → (∀ c ∈ y2, c ≠ '-') →
    x1 ++ '-' :: y1 = x2 ++ '-' :: y2 → x1 = x2 ∧ y1 = y2 := by
  intro x1
  induction x1 with
  | nil =>
    intro x2 y1 y2 hy1 hy2 h
    cases x2 with
    | nil => simpa using h
    | cons c x2' =>
      simp only [List.nil_append, List.cons_append, List.cons.injEq] at h
      obtain ⟨hc, hrest⟩ := h
      exfalso
      exact hy1 '-' (hrest ▸ List.mem_append_right _ (List.mem_cons_self _ _)) rfl
  | cons c x1' ih =>
    intro x2 y1 y2 hy1 hy2 h
    cases x2 with
    | nil =>
      simp only [List.cons_append, List.nil_append, List.cons.injEq] at h
      obtain ⟨hc, hrest⟩ := h
      exfalso
      exact hy2 '-' (hrest ▸ List.mem_append_right _ (List.mem_cons_self _ _)) rfl
    | cons d x2' =>
      simp only [List.cons_append, List.cons.injEq] at h
      obtain ⟨hc, hrest⟩ := h
      obtain ⟨h1, h2⟩ := ih x2' y1 y2 hy1 hy2 hrest
      exact ⟨by rw [hc, h1], h2⟩

theorem suffix_inj {b1 b2 : String} {k1 k2 : Nat}
    (h : b1 ++ "-" ++ natRepr k1 = b2 ++ "-" ++ natRepr k2) : b1 = b2 ∧ k1 = k2 := by
  have hdata : b1.data ++ '-' :: (decDigitsAux k1 k1) = b2.data ++ '-' :: (decDigitsAux k2 k2) := by
    have := congrArg String.data h
    simpa [String.data_append, natRepr] using this
  obtain ⟨hb, hk⟩ := append_hyphen_inj _ _ _ _
    (fun c hc => decDigitsAux_ne_hyphen c hc) (fun c hc => decDigitsAux_ne_hyphen c hc) hdata
  refine ⟨String.ext hb, natRepr_injective ?_⟩
  exact String.ext hk

theorem ne_append_suffix (b : String) (k : Nat) : b ≠ b ++ "-" ++ natRepr k := by
  intro h
  have := congrArg (fun s => s.data.length) h
  simp only [String.data_append, List.length_append, natRepr] at this
  have hne := @decDigitsAux_ne_nil k k
  have : (decDigitsAux k k).length = 0 := by
    have h1 : ("-" : String).data.length = 1 := rfl
    omega
  exact hne (List.length_eq_zero.mp this)

/-! ## The id-assignment pass on plain id lists -/

/-- The id produced for an occurrence counter `k` (counter `1` keeps the base
id, counter `k ≥ 2` appends `-k`). -/
def suffixedId (b : String) (k : Nat) : String :=
  if k = 1 then b else b ++ "-" ++ natRepr k

/-- `ensureUniqueIDs` projected onto the id strings. -/
def assignIDs : List String → List String → List String
  | _, [] => []
  | seen, b :: rest =>
    suffixedId b (seen.count b + 1) :: assignIDs (b :: seen) rest

theorem map_id_ensureUniqueIDsAux (seen : List String) (l : List Action) :
    (ensureUniqueIDsAux seen l).map Action.id = assignIDs seen (l.map Action.id) := by
  induction l generalizing seen with
  | nil => rfl
  | cons a rest ih =>
    simp only [ensureUniqueIDsAux, List.map_cons, assignIDs, suffixedId]
    rw [ih]
    by_cases h : seen.count a.id + 1 = 1 <;> simp [h]

theorem length_assignIDs (seen l : List String) : (assignIDs seen l).length = l.length := by
  induction l generalizing seen with
  | nil => rfl
  | cons b rest ih => simp [assignIDs, ih]

theorem assignIDs_getElem (seen l : List String) (i : Nat) (h : i < l.length)
    (h' : i < (assignIDs seen l).length) :
    (assignIDs seen l)[i] =
      suffixedId (l[i]) (seen.count (l[i]) + (l.take (i + 1)).count (l[i])) := by
  induction l generalizing seen i with
  | nil => simp at h
  | cons b rest ih =>
    cases i with
    | zero =>
      simp [assignIDs, List.count_cons]
    | succ i =>
      have hi : i < rest.length := by simpa using h
      simp only [assignIDs, List.getElem_cons_succ, List.take_succ_cons]
      rw [ih (b :: seen) i hi (by simpa [length_assignIDs] using hi)]
      simp only [List.count_cons]
      congr 1
      by_cases hb : b = rest[i]
      · simp [hb]; omega
      · simp [hb]

theorem mem_take_self {ids : List String} {i : Nat} (hi : i < ids.length) :
    ids[i] ∈ ids.take (i + 1) := by
  have hlen : i < (ids.take (i + 1)).length := by
    simp [List.length_take]; omega
  have := @List.getElem_take _ ids (i + 1) i hlen
  exact this ▸ List.getElem_mem hlen

theorem count_take_lt {ids : List String} {i j : Nat} (hij : i < j)
    (hi : i < ids.length) (hj : j < ids.length) (hb : ids[i] = ids[j]) :
    (ids.take (i + 1)).count (ids[i]) < (ids.take (j + 1)).count (ids[j]) := by
  have h1 : ids.take (i + 1) = (ids.take j).take (i + 1) := by
    rw [List.take_take, Nat.min_eq_left (by omega)]
  have h2 : (ids.take (i + 1)).count ids[j] ≤ (ids.take j).count ids[j] := by
    rw [h1]; exact (List.take_sublist _ _).count_le _
  have h3 : ids.take (j + 1) = ids.take j ++ [ids[j]] := by
    rw [List.take_succ]
    simp [List.getElem?_eq_getElem hj]
  rw [hb, h3, List.count_append]
  have h4 : List.count ids[j] [ids[j]] = 1 := by simp
  omega

theorem assignIDs_getElem_ne (ids : List String)
    (H : ∀ b ∈ ids, ∀ k ∈ List.range (ids.count b + 1), 2 ≤ k → (b ++ "-" ++ natRepr k) ∉ ids)
    {i j : Nat} (hij : i < j) (hj : j < ids.length)
    (hi' : i < (assignIDs [] ids).length) (hj' : j < (assignIDs [] ids).length) :
    (assignIDs [] ids)[i] ≠ (assignIDs [] ids)[j] := by
  intro heq
  have hi : i < ids.length := Nat.lt_trans hij hj
  rw [assignIDs_getElem [] ids i hi hi', assignIDs_getElem [] ids j hj hj'] at heq
  simp only [List.count_nil, Nat.zero_add] at heq
  have hci1 : 1 ≤ (ids.take (i + 1)).count ids[i] :=
    List.count_pos_iff.mpr (mem_take_self hi)
  have hcj1 : 1 ≤ (ids.take (j + 1)).count ids[j] :=
    List.count_pos_iff.mpr (mem_take_self hj)
  have hcile : (ids.take (i + 1)).count ids[i] ≤ ids.count ids[i] :=
    (List.take_sublist _ _).count_le _
  have hcjle : (ids.take (j + 1)).count ids[j] ≤ ids.count ids[j] :=
    (List.take_sublist _ _).count_le _
  have hmemi : ids[i] ∈ ids := List.getElem_mem hi
  have hmemj : ids[j] ∈ ids := List.getElem_mem hj
  by_cases ei : (ids.take (i + 1)).count ids[i] = 1 <;>
    by_cases ej : (ids.take (j + 1)).count ids[j] = 1
  · rw [suffixedId, if_pos ei, suffixedId, if_pos ej] at heq
    have := count_take_lt hij hi hj heq
    omega
  · rw [suffixedId, if_pos ei, suffixedId, if_neg ej] at heq
    have hnotin := H ids[j] hmemj ((ids.take (j + 1)).count ids[j])
      (List.mem_range.mpr (by omega)) (by omega)
    rw [← heq] at hnotin
    exact hnotin hmemi
  · rw [suffixedId, if_neg ei, suffixedId, if_pos ej] at heq
    have hnotin := H ids[i] hmemi ((ids.take (i + 1)).count ids[i])
      (List.mem_range.mpr (by omega)) (by omega)
    rw [heq] at hnotin
    exact hnotin hmemj
  · rw [suffixedId, if_neg ei, suffixedId, if_neg ej] at heq
    obtain ⟨hb, hk⟩ := suffix_inj heq
    have := count_take_lt hij hi hj hb
    omega

theorem assignIDs_nodup (ids : List String)
    (H : ∀ b ∈ ids, ∀ k ∈ List.range (ids.count b + 1), 2 ≤ k → (b ++ "-" ++ natRepr k) ∉ ids) :
    (assignIDs [] ids).Nodup := by
  rw [List.nodup_iff_injective_get]
  rintro ⟨i, hi⟩ ⟨j, hj⟩ heq
  simp only [List.get_eq_getElem] at heq
  rcases Nat.lt_trichotomy i j with h | h | h
  · exact absurd heq (assignIDs_getElem_ne ids H h (by rwa [length_assignIDs] at hj) hi hj)
  · exact Fin.ext h
  · exact absurd heq.symm (assignIDs_getElem_ne ids H h (by rwa [length_assignIDs] at hi) hj hi)

theorem length_ensureUniqueIDs (l : List Action) :
    (ensureUniqueIDs l).length = l.length := by
  have := congrArg List.length (map_id_ensureUniqueIDsAux [] l)
  simpa [length_assignIDs] using this

/-- A sample action (only the fields that drive sorting and id assignment
vary). -/
def actionOf (id path : String) : Action :=
  ⟨id, "CRM API", "", "GET", path, "", "", [], none⟩

/-- C1 (amended): after sorting, the id-assignment pass gives the `m`-th
occurrence of a base id the suffix `-m` (for `m ≥ 2`) and keeps the first
occurrence unchanged; provided no base id of the catalog coincides with
another base id extended by such a suffix, all resulting ids are distinct. -/
theorem ensureUniqueIDs_unique_of_no_suffix_collision (l : List Action)
    (H : ∀ b ∈ l.map Action.id, ∀ k ∈ List.range ((l.map Action.id).count b + 1),
        2 ≤ k → (b ++ "-" ++ natRepr k) ∉ l.map Action.id) :
    ((ensureUniqueIDs (sortActions l)).map Action.id).Nodup ∧
    ∀ i (h : i < (sortActions l).length),
      ((ensureUniqueIDs (sortActions l)).map Action.id)[i]? =
        some (suffixedId ((sortActions l)[i].id)
          ((((sortActions l).map Action.id).take (i + 1)).count ((sortActions l)[i].id))) := by
  have hperm : List.Perm ((sortActions l).map Action.id) (l.map Action.id) :=
    (List.perm_insertionSort actionLe l).map Action.id
  have H' : ∀ b ∈ (sortActions l).map Action.id,
      ∀ k ∈ List.range (((sortActions l).map Action.id).count b + 1),
      2 ≤ k → (b ++ "-" ++ natRepr k) ∉ (sortActions l).map Action.id := by
    intro b hb k hk h2
    rw [hperm.mem_iff] at hb ⊢
    rw [hperm.count_eq] at hk
    exact H b hb k hk h2
  constructor
  · rw [ensureUniqueIDs, map_id_ensureUniqueIDsAux]
    exact assignIDs_nodup _ H'
  · intro i h
    have hlen : i < ((ensureUniqueIDs (sortActions l)).map Action.id).length := by
      rw [List.length_map, length_ensureUniqueIDs]; exact h
    rw [List.getElem?_eq_getElem hlen]
    have hmap : i < ((sortActions l).map Action.id).length := by
      rw [List.length_map]; exact h
    have hgoal := assignIDs_getElem [] ((sortActions l).map Action.id) i hmap
      (by rw [length_assignIDs]; exact hmap)
    have hl : ((ensureUniqueIDs (sortActions l)).map Action.id) =
        assignIDs [] ((sortActions l).map Action.id) := by
      rw [ensureUniqueIDs, map_id_ensureUniqueIDsAux]
    congr 1
    rw [List.getElem_of_eq hl hlen, hgoal]
    simp [List.getElem_map]

/-- C1 (counterexample): three actions whose base ids are, in sort order,
`crm.get-contact`, `crm.get-contact`, `crm.get-contact-2`.  The second
occurrence of `crm.get-contact` is suffixed into `crm.get-contact-2`, which
collides with the pre-existing base id `crm.get-contact-2`: the final catalog
carries a duplicated id, refuting the claimed uniqueness. -/
theorem ensureUniqueIDs_not_always_unique :
    ¬ ((ensureUniqueIDs (sortActions
        [actionOf "crm.get-contact" "/a", actionOf "crm.get-contact" "/b",
         actionOf "crm.get-contact-2" "/c"])).map Action.id).Nodup := by
  decide

/-- Witness for `ensureUniqueIDs_unique_of_no_suffix_collision` at a concrete
two-action catalog with a duplicated base id and no suffix collision. -/
theorem ensureUniqueIDs_unique_witness :
    ((ensureUniqueIDs (sortActions
        [actionOf "crm.list-contacts" "/a", actionOf "crm.list-contacts" "/b"])).map
      Action.id).Nodup :=
  (ensureUniqueIDs_unique_of_no_suffix_collision
    [actionOf "crm.list-contacts" "/a", actionOf "crm.list-contacts" "/b"]
    (by decide)).1

/-! ## Facts about ASCII case mapping -/

theorem char_le_iff (a b : Char) : a ≤ b ↔ a.toNat ≤ b.toNat := by
  rw [Char.le_def, UInt32.le_def, BitVec.le_def]
  rfl

theorem charOfNat_toNat (n : Nat) (h : n < 55296) : (Char.ofNat n).toNat = n := by
  unfold Char.ofNat
  rw [dif_pos (Or.inl h)]
  rfl

/-- The output of the case mapping contains no upper-case ASCII letter. -/
theorem lowerChar_not_upper (c : Char) : ¬ ('A' ≤ lowerChar c ∧ lowerChar c ≤ 'Z') := by
  unfold lowerChar
  by_cases h : 'A' ≤ c ∧ c ≤ 'Z'
  · rw [if_pos h]
    obtain ⟨h1, h2⟩ := h
    rw [char_le_iff] at h1 h2
    have hA : ('A').toNat = 65 := rfl
    have hZ : ('Z').toNat = 90 := rfl
    rintro ⟨g1, g2⟩
    rw [char_le_iff] at g1 g2
    rw [charOfNat_toNat (c.toNat + 32) (by omega)] at g1 g2
    omega
  · rwa [if_neg h]

theorem lowerChar_idem (c : Char) : lowerChar (lowerChar c) = lowerChar c := by
  conv_lhs => rw [lowerChar]
  rw [if_neg (lowerChar_not_upper c)]

theorem lowerString_idem (s : String) : lowerString (lowerString s) = lowerString s := by
  unfold lowerString
  apply congrArg (fun l => ({ data := l } : String))
  rw [List.map_map]
  exact List.map_congr_left (fun a _ => lowerChar_idem a)

/-! ## Parameter decoding (`parameterSpec`, `parameterSchema`,
`decodeParametersList`, `schemaType`) -/

/-- `parameterSchema` from `catalog.go` (`enum` holds the values already
stringified, as `fmt.Sprint` renders them). -/
inductive ParamSchema where
  | mk (type : String) (items : Option ParamSchema) (enum : List String)

def ParamSchema.type : ParamSchema → String | .mk t _ _ => t
def ParamSchema.items : ParamSchema → Option ParamSchema | .mk _ i _ => i
def ParamSchema.enum : ParamSchema → List String | .mk _ _ e => e

/-- `parameterSpec` from `catalog.go`. -/
structure ParameterSpec where
  ref : String
  name : String
  in_loc : String
  required : Bool
  description : String
  schema : Option ParamSchema

/-- `schemaType` from `catalog.go`, on a non-nil schema. -/
def schemaTypeCore : ParamSchema → String
  | .mk t items _ =>
    let kind := trimString t
    if kind = "" then ""
    else if kind = "array" then
      match items with
      | some it =>
        (let itemType := schemaTypeCore it
         if itemType = "" then kind else "array[" ++ itemType ++ "]")
      | none => kind
    else kind

/-- `schemaType` from `catalog.go` (`none` models the nil pointer). -/
def schemaType : Option ParamSchema → String
  | none => ""
  | some s => schemaTypeCore s

/-- The body of the `decodeParametersList` loop for one successfully
unmarshalled `parameterSpec`; `none` means the entry is skipped. -/
def decodeParam (p : ParameterSpec) : Option ActionParameter :=
  if trimString p.ref ≠ "" then none
  else
    let name := trimString p.name
    let location := trimString p.in_loc
    if name = "" ∨ location = "" then none
    else some
      { name := name
        in_loc := lowerString location
        required := p.required || (lowerString location = "path")
        type := schemaType p.schema
        description := trimString p.description
        enum := match p.schema with
          | some s => if s.enum.length > 0 then s.enum else []
          | none => [] }

/-- The ordering of the `sort.Slice` calls on parameter lists: by location,
then name. -/
def paramOrd (p q : ActionParameter) : Prop :=
  strLt p.in_loc q.in_loc = true ∨ (p.in_loc = q.in_loc ∧ strLe p.name q.name = true)

instance : DecidableRel paramOrd := fun _ _ => by unfold paramOrd; infer_instance

instance : IsTotal ActionParameter paramOrd where
  total p q := by
    unfold paramOrd
    by_cases h1 : strLt p.in_loc q.in_loc = true
    · exact .inl (.inl h1)
    by_cases e1 : p.in_loc = q.in_loc
    case neg => exact .inr (.inl (strLt_of_not_lt_of_ne h1 e1))
    rcases strLe_total p.name q.name with h | h
    · exact .inl (.inr ⟨e1, h⟩)
    · exact .inr (.inr ⟨e1.symm, h⟩)

instance : IsTrans ActionParameter paramOrd where
  trans p q r hpq hqr := by
    unfold paramOrd at *
    rcases hpq with h | ⟨h, hpq⟩
    · rcases hqr with h' | ⟨h', _⟩
      · exact .inl (strLt_trans h h')
      · exact .inl (h' ▸ h)
    · rcases hqr with h' | ⟨h', hqr⟩
      · exact .inl (h ▸ h')
      · exact .inr ⟨h.trans h', strLe_trans hpq hqr⟩

/-- `decodeParametersList` from `catalog.go`: each raw entry either fails to
unmarshal (`none`), is skipped (`$ref`, empty name or location), or yields a
normalized parameter; the collected list is sorted by location then name. -/
def decodeParametersList (list : List (Option ParameterSpec)) : List ActionParameter :=
  List.insertionSort paramOrd (list.filterMap (fun raw => raw.bind decodeParam))

/-! ## `mergeParameters` -/

/-- The map key `strings.ToLower(p.In) + ":" + strings.ToLower(p.Name)`. -/
def paramKey (p : ActionParameter) : String :=
  lowerString p.in_loc ++ ":" ++ lowerString p.name

/-- Insertion into the merge map, modelled as an association list with
unique keys (`m[key] = p`). -/
def putParam (key : String) (p : ActionParameter) :
    List (String × ActionParameter) → List (String × ActionParameter)
  | [] => [(key, p)]
  | (k, q) :: rest =>
    if k = key then (k, p) :: rest else (k, q) :: putParam key p rest

/-- `mergeParameters` from `catalog.go`: path-level entries inserted first,
operation-level entries second (overwriting on equal key), values sorted by
location then name. -/
def mergeParameters (pathParams operationParams : List ActionParameter) :
    List ActionParameter :=
  if pathParams.isEmpty ∧ operationParams.isEmpty then []
  else
    let m := (pathParams ++ operationParams).foldl
      (fun m p => putParam (paramKey p) p m) []
    List.insertionSort paramOrd (m.map Prod.snd)

/-! ## Association-map lemmas for `mergeParameters` -/

/-- Lookup in the modelled merge map. -/
def lookupKey (k : String) : List (String × ActionParameter) → Option ActionParameter
  | [] => none
  | (k0, v) :: rest => if k0 = k then some v else lookupKey k rest

theorem lookupKey_putParam (k k' : String) (p : ActionParameter) :
    ∀ m, lookupKey k' (putParam k p m) =
      if k = k' then some p else lookupKey k' m
  | [] => by
    by_cases h : k = k' <;> simp [putParam, lookupKey, h]
  | (k0, q) :: rest => by
    by_cases h0 : k0 = k
    · subst h0
      by_cases h : k0 = k' <;> simp [putParam, lookupKey, h]
    · simp only [putParam, if_neg h0, lookupKey]
      by_cases h : k0 = k'
      · subst h
        rw [if_pos rfl, if_pos rfl, if_neg (fun hh => h0 hh.symm)]
      · rw [if_neg h, if_neg h]
        exact lookupKey_putParam k k' p rest

theorem lookupKey_foldl_putParam (k : String) :
    ∀ (ps : List ActionParameter) (m : List (String × ActionParameter)),
    lookupKey k (ps.foldl (fun m p => putParam (paramKey p) p m) m) =
      (ps.reverse.find? (fun p => paramKey p == k)).or (lookupKey k m)
  | [], m => by simp
  | p :: ps, m => by
    rw [List.foldl_cons, lookupKey_foldl_putParam k ps, List.reverse_cons, List.find?_append,
      lookupKey_putParam, Option.or_assoc]
    congr 1
    by_cases h : paramKey p = k
    · have hb : (paramKey p == k) = true := beq_iff_eq.mpr h
      simp [List.find?, hb, h]
    · have hb : (paramKey p == k) = false := by
        rw [beq_eq_false_iff_ne]; exact h
      simp [List.find?, hb, h]

theorem putParam_keys (k : String) (p : ActionParameter) :
    ∀ m, (putParam k p m).map Prod.fst =
      if k ∈ m.map Prod.fst then m.map Prod.fst else m.map Prod.fst ++ [k]
  | [] => by simp [putParam]
  | (k0, q) :: rest => by
    by_cases h : k0 = k
    · subst h; simp [putParam]
    · simp only [putParam, if_neg h, List.map_cons, putParam_keys k p rest]
      have hne : ¬ k = k0 := fun hh => h hh.symm
      by_cases hm : k ∈ rest.map Prod.fst
      · simp [List.mem_cons, hm, hne]
      · simp [List.mem_cons, hm, hne]

theorem mem_putParam {e : String × ActionParameter} (k : String) (p : ActionParameter) :
    ∀ m, e ∈ putParam k p m → e = (k, p) ∨ e ∈ m
  | [], h => by simpa [putParam] using h
  | (k0, q) :: rest, h => by
    by_cases hk : k0 = k
    · subst hk
      simp only [putParam, if_pos rfl] at h
      rcases List.mem_cons.mp h with he | he
      · exact .inl he
      · exact .inr (List.mem_cons_of_mem _ he)
    · simp only [putParam, if_neg hk] at h
      rcases List.mem_cons.mp h with he | he
      · exact .inr (by rw [he]; exact List.mem_cons_self _ _)
      · rcases mem_putParam k p rest he with h' | h'
        · exact .inl h'
        · exact .inr (List.mem_cons_of_mem _ h')

theorem foldl_putParam_invariant :
    ∀ (ps : List ActionParameter) (m : List (String × ActionParameter)),
    (m.map Prod.fst).Nodup → (∀ e ∈ m, e.1 = paramKey e.2) →
    (((ps.foldl (fun m p => putParam (paramKey p) p m) m).map Prod.fst).Nodup ∧
     ∀ e ∈ ps.foldl (fun m p => putParam (paramKey p) p m) m, e.1 = paramKey e.2)
  | [], m => fun h1 h2 => ⟨h1, h2⟩
  | p :: ps, m => by
    intro h1 h2
    rw [List.foldl_cons]
    apply foldl_putParam_invariant ps
    · rw [putParam_keys]
      by_cases hm : paramKey p ∈ m.map Prod.fst
      · rwa [if_pos hm]
      · rw [if_neg hm]
        rw [List.nodup_append]
        refine ⟨h1, List.nodup_singleton _, ?_⟩
        intro a ha hb
        rw [List.mem_singleton] at hb
        subst hb
        exact hm ha
    · intro e he
      rcases mem_putParam _ _ _ he with h' | h'
      · rw [h']
      · exact h2 e h'

theorem lookupKey_eq_of_mem_nodup {k : String} {v : ActionParameter}
    {m : List (String × ActionParameter)} (hnd : (m.map Prod.fst).Nodup)
    (hm : (k, v) ∈ m) : lookupKey k m = some v := by
  induction m with
  | nil => simp at hm
  | cons e rest ih =>
    obtain ⟨k0, v0⟩ := e
    simp only [List.map_cons, List.nodup_cons] at hnd
    rcases List.mem_cons.mp hm with he | he
    · obtain ⟨h1, h2⟩ := Prod.mk.injEq .. ▸ he
      subst h1; subst h2
      simp [lookupKey]
    · have hk : k0 ≠ k := by
        intro hkk
        subst hkk
        exact hnd.1 (List.mem_map.mpr ⟨(k0, v), he, rfl⟩)
      simp only [lookupKey, if_neg hk]
      exact ih hnd.2 he

theorem lookupKey_mem {k : String} {v : ActionParameter} :
    ∀ {m : List (String × ActionParameter)}, lookupKey k m = some v → (k, v) ∈ m := by
  intro m
  induction m with
  | nil => intro h; simp [lookupKey] at h
  | cons e rest ih =>
    intro h
    obtain ⟨k0, v0⟩ := e
    by_cases hk : k0 = k
    · subst hk
      simp [lookupKey] at h
      exact List.mem_cons.mpr (.inl (by rw [h]))
    · simp only [lookupKey, if_neg hk] at h
      exact List.mem_cons_of_mem _ (ih h)

/-- Every member of the merged list is the last entry with its key in the
concatenated input. -/
theorem find?_of_mem_mergeParameters {a b : List ActionParameter}
    (hemp : ¬ (a.isEmpty ∧ b.isEmpty)) {p : ActionParameter}
    (hp : p ∈ mergeParameters a b) :
    (a ++ b).reverse.find? (fun r => paramKey r == paramKey p) = some p := by
  rw [mergeParameters, if_neg hemp] at hp
  obtain ⟨hnodup, hkeys⟩ := foldl_putParam_invariant (a ++ b) [] (by simp) (by simp)
  have hpM : p ∈ ((a ++ b).foldl (fun m p => putParam (paramKey p) p m) []).map Prod.snd :=
    (List.perm_insertionSort _ _).mem_iff.mp hp
  obtain ⟨e, heM, hev⟩ := List.mem_map.mp hpM
  have hkey : e.1 = paramKey p := by rw [hkeys e heM, hev]
  have hepair : (paramKey p, p) ∈ (a ++ b).foldl (fun m p => putParam (paramKey p) p m) [] := by
    have : e = (paramKey p, p) := by
      obtain ⟨k0, v0⟩ := e
      simp only at hkey hev
      rw [hkey, hev]
    rwa [this] at heM
  have hlk := lookupKey_eq_of_mem_nodup hnodup hepair
  rw [lookupKey_foldl_putParam] at hlk
  simpa [lookupKey] using hlk

/-- C4: `mergeParameters` is a last-write-wins union keyed by
`(location, name)`: any merged entry whose key also occurs among the
operation-level parameters is itself an operation-level parameter (complete
replacement, all fields included), keys are pairwise distinct in the result,
the key set is the union of the input key sets, and the result is ordered by
location and then name. -/
theorem mergeParameters_spec (a b : List ActionParameter) :
    (∀ p ∈ mergeParameters a b, (∃ q ∈ b, paramKey q = paramKey p) → p ∈ b) ∧
    ((mergeParameters a b).map paramKey).Nodup ∧
    (∀ k, (∃ p ∈ mergeParameters a b, paramKey p = k) ↔ ∃ p ∈ a ++ b, paramKey p = k) ∧
    List.Pairwise paramOrd (mergeParameters a b) := by
  by_cases hemp : a.isEmpty ∧ b.isEmpty
  · have hm : mergeParameters a b = [] := by rw [mergeParameters, if_pos hemp]
    obtain ⟨ha, hb⟩ := hemp
    rw [List.isEmpty_iff] at ha hb
    subst ha; subst hb
    simp [hm]
  · obtain ⟨hnodup, hkeys⟩ := foldl_putParam_invariant (a ++ b) [] (by simp) (by simp)
    have hm : mergeParameters a b =
        List.insertionSort paramOrd
          (((a ++ b).foldl (fun m p => putParam (paramKey p) p m) []).map Prod.snd) := by
      rw [mergeParameters, if_neg hemp]
    refine ⟨?_, ?_, ?_, ?_⟩
    · rintro p hp ⟨q, hq, hkey⟩
      have hfind := find?_of_mem_mergeParameters hemp hp
      rw [List.reverse_append, List.find?_append] at hfind
      have hbs : (b.reverse.find? (fun r => paramKey r == paramKey p)).isSome := by
        rw [List.find?_isSome]
        exact ⟨q, List.mem_reverse.mpr hq, beq_iff_eq.mpr hkey⟩
      obtain ⟨r, hr⟩ := Option.isSome_iff_exists.mp hbs
      rw [hr] at hfind
      have hrp : r = p := by
        have h2 : (some r : Option ActionParameter) = some p := hfind
        exact Option.some.inj h2
      rw [← hrp]
      exact List.mem_reverse.mp (List.mem_of_find?_eq_some hr)
    · have h1 : (((a ++ b).foldl (fun m p => putParam (paramKey p) p m) []).map Prod.snd).map
          paramKey = ((a ++ b).foldl (fun m p => putParam (paramKey p) p m) []).map Prod.fst := by
        rw [List.map_map]
        exact List.map_congr_left (fun e he => by
          simp only [Function.comp_apply]
          exact (hkeys e he).symm)
      have hp2 : List.Perm ((mergeParameters a b).map paramKey)
          (((a ++ b).foldl (fun m p => putParam (paramKey p) p m) []).map Prod.fst) := by
        rw [← h1, hm]
        exact (List.perm_insertionSort _ _).map paramKey
      exact hp2.nodup_iff.mpr hnodup
    · intro k
      constructor
      · rintro ⟨p, hp, hpk⟩
        have hfind := find?_of_mem_mergeParameters hemp hp
        have hpmem : p ∈ (a ++ b).reverse := List.mem_of_find?_eq_some hfind
        exact ⟨p, List.mem_reverse.mp hpmem, hpk⟩
      · rintro ⟨p, hp, hpk⟩
        have hbs : ((a ++ b).reverse.find? (fun r => paramKey r == k)).isSome := by
          rw [List.find?_isSome]
          exact ⟨p, List.mem_reverse.mpr hp, beq_iff_eq.mpr hpk⟩
        obtain ⟨r, hr⟩ := Option.isSome_iff_exists.mp hbs
        have hrk : paramKey r = k := by
          have hpr := List.find?_some hr
          exact beq_iff_eq.mp hpr
        have hlk : lookupKey k ((a ++ b).foldl (fun m p => putParam (paramKey p) p m) []) =
            some r := by
          rw [lookupKey_foldl_putParam, hr]
          rfl
        have hrM := lookupKey_mem hlk
        have hrmem : r ∈ ((a ++ b).foldl (fun m p => putParam (paramKey p) p m) []).map
            Prod.snd := List.mem_map.mpr ⟨(k, r), hrM, rfl⟩
        refine ⟨r, ?_, hrk⟩
        rw [hm]
        exact (List.perm_insertionSort _ _).mem_iff.mpr hrmem
    · rw [hm]
      exact List.sorted_insertionSort paramOrd _

/-- Sample path-level parameter shared by the merge examples. -/
def pathLevelInclude : ActionParameter :=
  ⟨"include", "query", false, "string", "path-level description", ["none"]⟩

/-- Sample operation-level parameter with the same `(location, name)` key. -/
def operationLevelInclude : ActionParameter :=
  ⟨"include", "query", true, "integer", "operation-level description", ["all"]⟩

/-- Witness for `mergeParameters_spec`: the operation-level `include`
completely replaces the path-level one. -/
theorem mergeParameters_spec_witness : operationLevelInclude ∈ [operationLevelInclude] :=
  (mergeParameters_spec [pathLevelInclude] [operationLevelInclude]).1
    operationLevelInclude (by decide) ⟨operationLevelInclude, by decide, rfl⟩

/-! ## Structure of decoded parameters -/

theorem mem_decodeParametersList {specs : List (Option ParameterSpec)} {p : ActionParameter}
    (hp : p ∈ decodeParametersList specs) :
    ∃ s : ParameterSpec, (some s) ∈ specs ∧ decodeParam s = some p := by
  rw [decodeParametersList] at hp
  have hmem := (List.perm_insertionSort _ _).mem_iff.mp hp
  obtain ⟨raw, hraw, hbind⟩ := List.mem_filterMap.mp hmem
  cases raw with
  | none => simp at hbind
  | some s => exact ⟨s, hraw, hbind⟩

theorem decodeParam_eq {s : ParameterSpec} {p : ActionParameter}
    (h : decodeParam s = some p) :
    trimString s.ref = "" ∧ trimString s.name ≠ "" ∧ trimString s.in_loc ≠ "" ∧
    p = { name := trimString s.name
          in_loc := lowerString (trimString s.in_loc)
          required := s.required || decide (lowerString (trimString s.in_loc) = "path")
          type := schemaType s.schema
          description := trimString s.description
          enum := match s.schema with
            | some sc => if sc.enum.length > 0 then sc.enum else []
            | none => [] } := by
  rw [decodeParam] at h
  by_cases h1 : trimString s.ref ≠ ""
  · rw [if_pos h1] at h
    exact absurd h (by simp)
  · rw [if_neg h1] at h
    push_neg at h1
    by_cases h2 : trimString s.name = "" ∨ trimString s.in_loc = ""
    · rw [if_pos h2] at h
      exact absurd h (by simp)
    · rw [if_neg h2] at h
      push_neg at h2
      exact ⟨h1, h2.1, h2.2, (Option.some.inj h).symm⟩

theorem lowerString_ne_empty {t : String} (h : t ≠ "") : lowerString t ≠ "" := by
  intro hcon
  apply h
  rw [String.ext_iff] at hcon ⊢
  simpa [lowerString] using hcon

/-- C5: every decoded parameter whose (case-insensitively compared) location
is `path` is marked required, whatever the source's required flag said; in
particular a path-level required `contactId` path parameter merged with no
operation-level override yields exactly that one required parameter. -/
theorem decodeParametersList_path_required :
    (∀ (specs : List (Option ParameterSpec)) (p : ActionParameter),
        p ∈ decodeParametersList specs → lowerString p.in_loc = "path" →
        p.required = true) ∧
    mergeParameters
      (decodeParametersList
        [some ⟨"", "contactId", "path", true, "", some (.mk "string" none [])⟩]) [] =
      [⟨"contactId", "path", true, "string", "", []⟩] := by
  constructor
  · intro specs p hp hpath
    obtain ⟨s, _, hdec⟩ := mem_decodeParametersList hp
    obtain ⟨_, _, _, hpeq⟩ := decodeParam_eq hdec
    subst hpeq
    simp only at hpath ⊢
    rw [lowerString_idem] at hpath
    simp [hpath]
  · decide

/-- Witness for `decodeParametersList_path_required`: a parameter declared at
location `Path` with `required = false` still decodes as required. -/
theorem decodeParametersList_path_required_witness :
    (⟨"contactId", "path", true, "", "", []⟩ : ActionParameter).required = true :=
  decodeParametersList_path_required.1
    [some ⟨"", "contactId", "Path", false, "", none⟩]
    ⟨"contactId", "path", true, "", "", []⟩ (by decide) (by decide)

/-- C10: parameter decoding silently drops entries with a `$ref`, an empty
trimmed name or an empty trimmed location (and undecodable entries); every
decoded parameter has a non-empty name and a non-empty location containing no
upper-case ASCII letter. -/
theorem decodeParametersList_drops_and_normalizes :
    (∀ (s : ParameterSpec) (rest : List (Option ParameterSpec)),
        (trimString s.ref ≠ "" ∨ trimString s.name = "" ∨ trimString s.in_loc = "") →
        decodeParametersList (some s :: rest) = decodeParametersList rest) ∧
    (∀ rest, decodeParametersList (none :: rest) = decodeParametersList rest) ∧
    (∀ (specs : List (Option ParameterSpec)) (p : ActionParameter),
        p ∈ decodeParametersList specs →
        p.name ≠ "" ∧ p.in_loc ≠ "" ∧ ∀ c ∈ p.in_loc.data, ¬ ('A' ≤ c ∧ c ≤ 'Z')) := by
  refine ⟨?_, ?_, ?_⟩
  · intro s rest hbad
    rw [decodeParametersList, decodeParametersList, List.filterMap_cons]
    cases hbind : (some s : Option ParameterSpec).bind decodeParam with
    | none => rfl
    | some q =>
      exfalso
      have hdec : decodeParam s = some q := hbind
      obtain ⟨h1, h2, h3, _⟩ := decodeParam_eq hdec
      rcases hbad with h | h | h
      · exact h h1
      · exact h2 h
      · exact h3 h
  · intro rest
    rw [decodeParametersList, decodeParametersList, List.filterMap_cons]
    rfl
  · intro specs p hp
    obtain ⟨s, _, hdec⟩ := mem_decodeParametersList hp
    obtain ⟨_, h2, h3, hpeq⟩ := decodeParam_eq hdec
    subst hpeq
    refine ⟨h2, lowerString_ne_empty h3, ?_⟩
    intro c hc
    simp only [lowerString] at hc
    obtain ⟨c0, _, hc0⟩ := List.mem_map.mp hc
    rw [← hc0]
    exact lowerChar_not_upper c0

/-- Witness for `decodeParametersList_drops_and_normalizes`: the parameter
decoded from a `\x7b name: contactId, in: " PATH " \x7d` source entry. -/
theorem decodeParametersList_drops_witness :
    ("contactId" : String) ≠ "" ∧ ("path" : String) ≠ "" ∧
      ∀ c ∈ ("path" : String).data, ¬ ('A' ≤ c ∧ c ≤ 'Z') :=
  decodeParametersList_drops_and_normalizes.2.2
    [some ⟨"", "contactId", " PATH ", true, "", none⟩]
    ⟨"contactId", "path", true, "", "", []⟩ (by decide)

/-! ## `Catalog.Find` -/

/-- The errors `Find` can report. -/
inductive FindError where
  | missingRef
  | notFound (ref : String)
  | ambiguous (ref : String) (options : List String)
deriving DecidableEq

/-- The two matching passes of `Find`, after the reference has been trimmed
and normalized: first action whose normalized id matches wins; otherwise the
actions whose normalized operation id matches decide the outcome. -/
def findCore (c : Catalog) (ref : String) (normalized : String) :
    Except FindError Action :=
  match c.actions.find? (fun a => normalizeToken a.id = normalized) with
  | some a => .ok a
  | none =>
    match c.actions.filter (fun a => normalizeToken a.operationId = normalized) with
    | [] => .error (.notFound ref)
    | [a] => .ok a
    | more => .error (.ambiguous ref (sortStrings (more.map Action.id)))

/-- `Catalog.Find` from `catalog.go`. -/
def Catalog.find (c : Catalog) (ref : String) : Except FindError Action :=
  let needle := trimString ref
  if needle = "" then .error .missingRef
  else findCore c ref (normalizeToken needle)

theorem findCore_ok_iff (c : Catalog) (r1 r2 n : String) (a : Action) :
    findCore c r1 n = .ok a ↔ findCore c r2 n = .ok a := by
  rw [findCore, findCore]
  cases hfind : c.actions.find? (fun a => normalizeToken a.id = n) with
  | some a' => simp
  | none =>
    cases hmatch : c.actions.filter (fun a => normalizeToken a.operationId = n) with
    | nil => simp
    | cons x xs =>
      cases xs with
      | nil => simp
      | cons y ys => simp

/-- A sample action for the lookup examples. -/
def actionOp (id opid : String) : Action :=
  ⟨id, "CRM API", opid, "GET", "/x", "", "", [], none⟩

/-- C6: lookup results (successful resolutions) depend only on the
normalized reference, so case/punctuation variants of a reference resolve
identically; the candidate list carried by an ambiguity error is sorted; the
three spelling variants of `Get Contact` share one normal form; and on
concrete catalogs the result policy is: ambiguous for two operation-id
matches (with sorted candidate ids), the unique action for one, not-found
for zero. -/
theorem find_resolution_policy :
    (∀ (c : Catalog) (r1 r2 : String) (a : Action),
        trimString r1 ≠ "" → trimString r2 ≠ "" →
        normalizeToken (trimString r1) = normalizeToken (trimString r2) →
        (c.find r1 = .ok a ↔ c.find r2 = .ok a)) ∧
    (∀ (c : Catalog) (ref r : String) (opts : List String),
        c.find ref = .error (.ambiguous r opts) → List.Pairwise strOrd opts) ∧
    (normalizeToken "Get Contact" = "get-contact" ∧
     normalizeToken "get-contact" = "get-contact" ∧
     normalizeToken "GET_CONTACT" = "get-contact") ∧
    ((Catalog.mk "s" [actionOp "crm.b" "Get Contact", actionOp "crm.a" "Get Contact"]).find
        "get contact" = .error (.ambiguous "get contact" ["crm.a", "crm.b"])) ∧
    ((Catalog.mk "s" [actionOp "crm.a" "Get Contact"]).find "GET_CONTACT" =
        .ok (actionOp "crm.a" "Get Contact")) ∧
    ((Catalog.mk "s" [actionOp "crm.a" "Other Op"]).find "get-contact" =
        .error (.notFound "get-contact")) := by
  refine ⟨?_, ?_, ?_, ?_, ?_, ?_⟩
  · intro c r1 r2 a h1 h2 hnorm
    rw [Catalog.find, Catalog.find]
    rw [if_neg h1, if_neg h2, hnorm]
    exact findCore_ok_iff c r1 r2 _ a
  · intro c ref r opts h
    rw [Catalog.find] at h
    by_cases hempty : trimString ref = ""
    · rw [if_pos hempty] at h
      exact absurd h (by simp)
    · rw [if_neg hempty, findCore] at h
      split at h
      · exact absurd h (by simp)
      · split at h
        · exact absurd h (by simp)
        · exact absurd h (by simp)
        · simp only [Except.error.injEq, FindError.ambiguous.injEq] at h
          rw [← h.2]
          exact List.sorted_insertionSort strOrd _
  · exact ⟨by decide, by decide, by decide⟩
  · rfl
  · rfl
  · rfl

/-- Witness for `find_resolution_policy`: two spellings of `Get Contact`
resolve to the same action on a one-action catalog. -/
theorem find_resolution_policy_witness :
    (Catalog.mk "s" [actionOp "crm.a" "Get Contact"]).find "Get Contact" =
        .ok (actionOp "crm.a" "Get Contact") ↔
      (Catalog.mk "s" [actionOp "crm.a" "Get Contact"]).find "GET_CONTACT" =
        .ok (actionOp "crm.a" "Get Contact") :=
  find_resolution_policy.1 (Catalog.mk "s" [actionOp "crm.a" "Get Contact"])
    "Get Contact" "GET_CONTACT" (actionOp "crm.a" "Get Contact")
    (by decide) (by decide) (by decide)

/-- C9: an empty or whitespace-only reference fails with the
missing-action-reference error before any id comparison, whatever the
catalog contains. -/
theorem find_empty_ref (c : Catalog) (ref : String) (h : trimString ref = "") :
    c.find ref = .error .missingRef := by
  rw [Catalog.find, if_pos h]

/-- Witness for `find_empty_ref`: a whitespace reference is rejected even on
a catalog whose action id normalizes to the empty token. -/
theorem find_empty_ref_witness :
    (Catalog.mk "s" [actionOp "???" "!!!"]).find "  " = .error .missingRef :=
  find_empty_ref (Catalog.mk "s" [actionOp "???" "!!!"]) "  " (by decide)

/-! ## `ResolvePathTemplate` -/

/-- The placeholder names matched by the regular expression `\{([^}]+)\}`,
leftmost and non-overlapping:  state `none` is outside a candidate match,
`some acc` is inside one, `acc` holding the name characters in reverse. -/
def findTokensAux : List Char → Option (List Char) → List (List Char)
  | [], _ => []
  | c :: rest, none =>
    if c = '{' then findTokensAux rest (some []) else findTokensAux rest none
  | c :: rest, some acc =>
    if c = '}' then
      (if acc = [] then findTokensAux rest none
       else acc.reverse :: findTokensAux rest none)
    else findTokensAux rest (some (c :: acc))

/-- `regexp.FindAllStringSubmatch` of the placeholder pattern: the list of
placeholder names in the template. -/
def findTokens (l : List Char) : List (List Char) := findTokensAux l none

/-- `shouldEscape(c, encodePathSegment)` from Go's `net/url`: characters kept
verbatim by `url.PathEscape` are the alphanumerics, `-._~` and `$&+:=@`. -/
def shouldEscapePathSegment (c : Char) : Bool :=
  if ('a' ≤ c && c ≤ 'z') || ('A' ≤ c && c ≤ 'Z') || ('0' ≤ c && c ≤ '9') then false
  else if c = '-' || c = '_' || c = '.' || c = '~' then false
  else if c = '$' || c = '&' || c = '+' || c = ':' || c = '=' || c = '@' then false
  else true

/-- `net/url`'s digit table `upperhex = "0123456789ABCDEF"`. -/
def upperhex : List Char :=
  ['0', '1', '2', '3', '4', '5', '6', '7', '8', '9', 'A', 'B', 'C', 'D', 'E', 'F']

/-- Upper-case hexadecimal digit, as `net/url` indexes `upperhex[d]`. -/
def hexDigitChar (d : Nat) : Char := (upperhex[d]?).getD '0'

/-- UTF-8 bytes of a character (Go strings are byte sequences; escaping works
byte by byte). -/
def utf8Bytes (c : Char) : List Nat :=
  let n := c.toNat
  if n < 128 then [n]
  else if n < 2048 then [192 + n / 64, 128 + n % 64]
  else if n < 65536 then [224 + n / 4096, 128 + (n / 64) % 64, 128 + n % 64]
  else [240 + n / 262144, 128 + (n / 4096) % 64, 128 + (n / 64) % 64, 128 + n % 64]

/-- `%XX` rendering of one escaped byte. -/
def percentEncodeByte (b : Nat) : List Char :=
  ['%', hexDigitChar (b / 16 % 16), hexDigitChar (b % 16)]

/-- `url.PathEscape`. -/
def pathEscape (s : String) : String :=
  ⟨s.data.flatMap (fun c =>
    if shouldEscapePathSegment c then (utf8Bytes c).flatMap percentEncodeByte
    else [c])⟩

/-- `strings.ReplaceAll` on character lists (leftmost, non-overlapping); the
fuel argument (the length of the subject suffices) makes the recursion
structural. -/
def replaceAllAux : Nat → List Char → List Char → List Char → List Char
  | 0, s, _, _ => s
  | fuel + 1, s, pat, rep =>
    match s with
    | [] => []
    | c :: rest =>
      if pat ≠ [] ∧ pat.isPrefixOf s then
        rep ++ replaceAllAux fuel (s.drop pat.length) pat rep
      else c :: replaceAllAux fuel rest pat rep

/-- `strings.ReplaceAll`. -/
def replaceAll (s pat rep : List Char) : List Char :=
  replaceAllAux s.length s pat rep

/-- `pathParams[name]` (a missing key yields the empty string, as for a Go
map). -/
def lookupParam (params : List (String × String)) (name : String) : String :=
  match params.find? (fun kv => kv.1 = name) with
  | some kv => kv.2
  | none => ""

/-- The replacement loop of `ResolvePathTemplate`, over the names found in
the template. -/
def resolveLoop (params : List (String × String)) :
    List (List Char) → List Char → Except String (List Char)
  | [], acc => .ok acc
  | name :: rest, acc =>
    let value := trimString (lookupParam params ⟨name⟩)
    if value = "" then
      .error ("missing required --path " ++ (⟨name⟩ : String) ++ "=<value>")
    else
      resolveLoop params rest (replaceAll acc ('{' :: (name ++ ['}'])) (pathEscape value).data)

/-- `ResolvePathTemplate` from `catalog.go`. -/
def ResolvePathTemplate (pathTemplate : String) (pathParams : List (String × String)) :
    Except String String :=
  let resolved := trimString pathTemplate
  if resolved = "" then .error "empty action path"
  else
    match resolveLoop pathParams (findTokens resolved.data) resolved.data with
    | .ok l => .ok ⟨l⟩
    | .error e => .error e

/-- Well-formed templates: every `\x7b` opens a placeholder with a nonempty
brace-free name closed by the next `\x7d`. -/
inductive WFTemplate : List Char → Prop
  | nil : WFTemplate []
  | plain {c : Char} {rest : List Char} : c ≠ '{' → WFTemplate rest →
      WFTemplate (c :: rest)
  | tok {w rest : List Char} : w ≠ [] → (∀ c ∈ w, c ≠ '{' ∧ c ≠ '}') →
      WFTemplate rest → WFTemplate ('{' :: (w ++ '}' :: rest))

/-- Executable check for `WFTemplate`; the state says whether the scanner is
inside a placeholder and has already seen a name character. -/
def wfTemplateAux : List Char → Option Bool → Bool
  | [], st => st.isNone
  | c :: rest, none =>
    if c = '{' then wfTemplateAux rest (some false) else wfTemplateAux rest none
  | c :: rest, some seen =>
    if c = '}' then seen && wfTemplateAux rest none
    else if c = '{' then false
    else wfTemplateAux rest (some true)

/-- Executable check for `WFTemplate`. -/
def wfTemplateB (l : List Char) : Bool := wfTemplateAux l none

theorem wfTemplateAux_sound :
    ∀ l : List Char,
      (wfTemplateAux l none = true → WFTemplate l) ∧
      (∀ seen, wfTemplateAux l (some seen) = true →
        ∃ w tail, l = w ++ '}' :: tail ∧ (∀ c ∈ w, c ≠ '{' ∧ c ≠ '}') ∧
          (w ≠ [] ∨ seen = true) ∧ WFTemplate tail)
  | [] => by
    constructor
    · intro _; exact .nil
    · intro seen h; simp [wfTemplateAux] at h
  | c :: rest => by
    constructor
    · intro h
      by_cases hc : c = '{'
      · subst hc
        rw [wfTemplateAux, if_pos rfl] at h
        obtain ⟨w, tail, heq, hw, hne, htail⟩ := (wfTemplateAux_sound rest).2 false h
        rcases hne with hne | hne
        · rw [heq]
          exact .tok hne hw htail
        · exact absurd hne (by simp)
      · rw [wfTemplateAux, if_neg hc] at h
        exact .plain hc ((wfTemplateAux_sound rest).1 h)
    · intro seen h
      by_cases hc : c = '}'
      · subst hc
        rw [wfTemplateAux, if_pos rfl, Bool.and_eq_true] at h
        exact ⟨[], rest, rfl, by simp, by simp [h.1], (wfTemplateAux_sound rest).1 h.2⟩
      · by_cases hc2 : c = '{'
        · subst hc2
          rw [wfTemplateAux, if_neg (by decide), if_pos rfl] at h
          exact absurd h (by simp)
        · rw [wfTemplateAux, if_neg hc, if_neg hc2] at h
          obtain ⟨w, tail, heq, hw, _, htail⟩ := (wfTemplateAux_sound rest).2 true h
          refine ⟨c :: w, tail, by rw [heq]; rfl, ?_, by simp, htail⟩
          intro d hd
          rcases List.mem_cons.mp hd with hd | hd
          · exact hd ▸ ⟨hc2, hc⟩
          · exact hw d hd

theorem wfTemplate_sound {l : List Char} (h : wfTemplateB l = true) : WFTemplate l :=
  (wfTemplateAux_sound l).1 h

/-! ## Properties of `replaceAll`, `pathEscape` and `findTokens` -/

theorem replaceAllAux_nil (f : Nat) (pat rep : List Char) :
    replaceAllAux f [] pat rep = [] := by
  cases f <;> rfl

theorem replaceAllAux_congr :
    ∀ (f1 f2 : Nat) (s pat rep : List Char), s.length ≤ f1 → s.length ≤ f2 →
      replaceAllAux f1 s pat rep = replaceAllAux f2 s pat rep
  | 0, f2, s, pat, rep => by
    intro h1 _
    have hs : s = [] := List.length_eq_zero.mp (Nat.le_zero.mp h1)
    subst hs
    rw [replaceAllAux_nil, replaceAllAux_nil]
  | f1 + 1, f2, s, pat, rep => by
    intro h1 h2
    cases s with
    | nil => rw [replaceAllAux_nil, replaceAllAux_nil]
    | cons c rest =>
      cases f2 with
      | zero => simp at h2
      | succ f2 =>
        simp only [replaceAllAux]
        by_cases hp : pat ≠ [] ∧ pat.isPrefixOf (c :: rest) = true
        · rw [if_pos hp, if_pos hp]
          have hpl : 1 ≤ pat.length := List.length_pos.mpr hp.1
          have hlen : ((c :: rest).drop pat.length).length ≤ f1 := by
            rw [List.length_drop]
            simp only [List.length_cons] at h1 ⊢
            omega
          have hlen2 : ((c :: rest).drop pat.length).length ≤ f2 := by
            rw [List.length_drop]
            simp only [List.length_cons] at h2 ⊢
            omega
          rw [replaceAllAux_congr f1 f2 _ pat rep hlen hlen2]
        · rw [if_neg hp, if_neg hp]
          have hlen : rest.length ≤ f1 := by
            simp only [List.length_cons] at h1; omega
          have hlen2 : rest.length ≤ f2 := by
            simp only [List.length_cons] at h2; omega
          rw [replaceAllAux_congr f1 f2 rest pat rep hlen hlen2]

theorem replaceAll_cons_pos {pat : List Char} {c : Char} {rest : List Char}
    (hne : pat ≠ []) (hp : pat.isPrefixOf (c :: rest) = true) (rep : List Char) :
    replaceAll (c :: rest) pat rep =
      rep ++ replaceAll ((c :: rest).drop pat.length) pat rep := by
  have hpl : 1 ≤ pat.length := List.length_pos.mpr hne
  show replaceAllAux (c :: rest).length (c :: rest) pat rep = _
  simp only [List.length_cons, replaceAllAux]
  rw [if_pos ⟨hne, hp⟩]
  congr 1
  apply replaceAllAux_congr
  · rw [List.length_drop]
    simp only [List.length_cons]
    omega
  · exact le_refl _

theorem replaceAll_cons_neg {pat : List Char} {c : Char} {rest : List Char}
    (h : ¬ (pat ≠ [] ∧ pat.isPrefixOf (c :: rest) = true)) (rep : List Char) :
    replaceAll (c :: rest) pat rep = c :: replaceAll rest pat rep := by
  show replaceAllAux (c :: rest).length (c :: rest) pat rep = _
  simp only [List.length_cons, replaceAllAux]
  rw [if_neg h]
  rfl

theorem isPrefixOf_cons_false {p0 : Char} {p l : List Char} {c : Char}
    (hc : c ≠ p0) : (p0 :: p).isPrefixOf (c :: l) = false := by
  simp only [List.isPrefixOf, Bool.and_eq_false_iff]
  left
  rw [beq_eq_false_iff_ne]
  exact fun hh => hc hh.symm

theorem hexDigitChar_not_brace (d : Nat) :
    hexDigitChar d ≠ '{' ∧ hexDigitChar d ≠ '}' := by
  rw [hexDigitChar]
  cases h : upperhex[d]? with
  | none => exact ⟨by decide, by decide⟩
  | some c =>
    have hmem : c ∈ upperhex := List.getElem?_mem h
    have hall : ∀ x ∈ upperhex, x ≠ '{' ∧ x ≠ '}' := by decide
    simpa using hall c hmem

theorem pathEscape_no_braces (v : String) :
    ∀ c ∈ (pathEscape v).data, c ≠ '{' ∧ c ≠ '}' := by
  intro c hc
  simp only [pathEscape] at hc
  obtain ⟨c0, _, hc0⟩ := List.mem_flatMap.mp hc
  by_cases he : shouldEscapePathSegment c0 = true
  · rw [if_pos he] at hc0
    obtain ⟨b, _, hb⟩ := List.mem_flatMap.mp hc0
    simp only [percentEncodeByte, List.mem_cons, List.mem_singleton,
      List.not_mem_nil, or_false] at hb
    rcases hb with h | h | h
    · exact h ▸ ⟨by decide, by decide⟩
    · exact h ▸ hexDigitChar_not_brace _
    · exact h ▸ hexDigitChar_not_brace _
  · rw [if_neg he] at hc0
    rw [List.mem_singleton] at hc0
    subst hc0
    constructor
    · intro hcon
      subst hcon
      exact he (by decide)
    · intro hcon
      subst hcon
      exact he (by decide)

theorem findTokens_nil : findTokens [] = [] := rfl

theorem findTokens_cons_plain {c : Char} (hc : c ≠ '{') (l : List Char) :
    findTokens (c :: l) = findTokens l := by
  rw [findTokens, findTokensAux, if_neg hc]
  rfl

theorem findTokensAux_plain_prefix :
    ∀ (u l : List Char), (∀ c ∈ u, c ≠ '{') →
      findTokensAux (u ++ l) none = findTokensAux l none
  | [], l, _ => rfl
  | c :: u', l, hu => by
    rw [List.cons_append, findTokensAux, if_neg (hu c (List.mem_cons_self c u'))]
    exact findTokensAux_plain_prefix u' l (fun d hd => hu d (List.mem_cons_of_mem _ hd))

theorem findTokensAux_scan (rest : List Char) :
    ∀ (w acc : List Char), (∀ c ∈ w, c ≠ '{' ∧ c ≠ '}') → (acc ≠ [] ∨ w ≠ []) →
      findTokensAux (w ++ '}' :: rest) (some acc) =
        (acc.reverse ++ w) :: findTokensAux rest none
  | [], acc, _, hne => by
    have hacc : acc ≠ [] := by
      rcases hne with h | h
      · exact h
      · exact absurd rfl h
    rw [List.nil_append, findTokensAux, if_pos rfl, if_neg hacc]
    simp
  | c :: w', acc, hw, _ => by
    rw [List.cons_append, findTokensAux, if_neg (hw c (List.mem_cons_self c w')).2,
      findTokensAux_scan rest w' (c :: acc)
        (fun d hd => hw d (List.mem_cons_of_mem _ hd)) (.inl (by simp))]
    simp

theorem findTokens_tok {w rest : List Char} (hw : ∀ c ∈ w, c ≠ '{' ∧ c ≠ '}')
    (hne : w ≠ []) :
    findTokens ('{' :: (w ++ '}' :: rest)) = w :: findTokens rest := by
  rw [findTokens, findTokensAux, if_pos rfl,
    findTokensAux_scan rest w [] hw (.inr hne)]
  rfl

theorem token_prefix_iff :
    ∀ (n w rest : List Char), (∀ c ∈ n, c ≠ '}') → (∀ c ∈ w, c ≠ '}') →
      ((n ++ ['}']).isPrefixOf (w ++ '}' :: rest) = true ↔ n = w)
  | [], [], rest, _, _ => by
    simp [List.isPrefixOf]
  | [], c :: w', rest, _, hw => by
    rw [List.nil_append, List.cons_append]
    rw [isPrefixOf_cons_false (hw c (List.mem_cons_self c w'))]
    simp
  | a :: n', [], rest, hn, _ => by
    rw [List.cons_append, List.nil_append]
    rw [isPrefixOf_cons_false (fun hh => (hn a (List.mem_cons_self a n')) hh.symm)]
    simp
  | a :: n', c :: w', rest, hn, hw => by
    rw [List.cons_append, List.cons_append]
    simp only [List.isPrefixOf, Bool.and_eq_true, beq_iff_eq]
    rw [token_prefix_iff n' w' rest (fun d hd => hn d (List.mem_cons_of_mem _ hd))
      (fun d hd => hw d (List.mem_cons_of_mem _ hd))]
    constructor
    · rintro ⟨h1, h2⟩; rw [h1, h2]
    · intro h
      injection h with h1 h2
      exact ⟨h1, h2⟩

theorem wf_append_plain :
    ∀ {u t : List Char}, (∀ c ∈ u, c ≠ '{') → WFTemplate t → WFTemplate (u ++ t)
  | [], _, _, ht => ht
  | c :: u', _, hu, ht =>
    .plain (hu c (List.mem_cons_self c u'))
      (wf_append_plain (fun d hd => hu d (List.mem_cons_of_mem _ hd)) ht)

theorem findTokens_wf_props {l : List Char} (h : WFTemplate l) :
    ∀ n ∈ findTokens l, n ≠ [] ∧ ∀ c ∈ n, c ≠ '{' ∧ c ≠ '}' := by
  induction h with
  | nil => simp [findTokens, findTokensAux]
  | @plain c rest hc _ ih =>
    rw [findTokens_cons_plain hc]
    exact ih
  | @tok w rest hne hw _ ih =>
    rw [findTokens_tok hw hne]
    intro n hn
    rcases List.mem_cons.mp hn with h | h
    · exact h ▸ ⟨hne, hw⟩
    · exact ih n h

theorem replaceAll_append_plain {n rep : List Char} :
    ∀ (u t : List Char), (∀ c ∈ u, c ≠ '{') →
      replaceAll (u ++ t) ('{' :: n) rep = u ++ replaceAll t ('{' :: n) rep
  | [], t, _ => rfl
  | c :: u', t, hu => by
    rw [List.cons_append, replaceAll_cons_neg (fun hpair => by
      rw [isPrefixOf_cons_false (hu c (List.mem_cons_self c u'))] at hpair
      exact Bool.noConfusion hpair.2)]
    rw [replaceAll_append_plain u' t (fun d hd => hu d (List.mem_cons_of_mem _ hd))]
    rfl

/-- Replacing the literal `\x7bn\x7d` in a well-formed template removes
exactly the placeholders named `n` and keeps the template well-formed,
provided the replacement text contains no braces. -/
theorem replaceAll_token {s : List Char} (hs : WFTemplate s) :
    ∀ {n rep : List Char}, n ≠ [] → (∀ c ∈ n, c ≠ '{' ∧ c ≠ '}') →
    (∀ c ∈ rep, c ≠ '{' ∧ c ≠ '}') →
    WFTemplate (replaceAll s ('{' :: (n ++ ['}'])) rep) ∧
    findTokens (replaceAll s ('{' :: (n ++ ['}'])) rep) =
      (findTokens s).filter (fun t => t ≠ n) := by
  induction hs with
  | nil =>
    intro n rep _ _ _
    constructor
    · exact .nil
    · simp [replaceAll, replaceAllAux, findTokens, findTokensAux]
  | @plain c rest hc _ ih =>
    intro n rep hne hn hrep
    rw [replaceAll_cons_neg (fun hpair => by
      rw [isPrefixOf_cons_false hc] at hpair
      exact Bool.noConfusion hpair.2)]
    obtain ⟨ihWF, ihTok⟩ := ih hne hn hrep
    constructor
    · exact .plain hc ihWF
    · rw [findTokens_cons_plain hc, findTokens_cons_plain hc, ihTok]
  | @tok w rest hwne hw _ ih =>
    intro n rep hne hn hrep
    obtain ⟨ihWF, ihTok⟩ := ih hne hn hrep
    by_cases hnw : n = w
    · subst hnw
      have hsplit : '{' :: (n ++ '}' :: rest) = ('{' :: (n ++ ['}'])) ++ rest := by
        simp
      have hpre : ('{' :: (n ++ ['}'])).isPrefixOf ('{' :: (n ++ '}' :: rest)) = true := by
        rw [List.isPrefixOf_iff_prefix, hsplit]
        exact List.prefix_append _ _
      rw [replaceAll_cons_pos (by simp) hpre rep]
      have hdrop : ('{' :: (n ++ '}' :: rest)).drop ('{' :: (n ++ ['}'])).length = rest := by
        rw [hsplit]
        exact List.drop_left _ _
      rw [hdrop]
      constructor
      · exact wf_append_plain (fun c hcc => (hrep c hcc).1) ihWF
      · rw [findTokens, findTokensAux_plain_prefix rep _ (fun c hcc => (hrep c hcc).1),
          ← findTokens, ihTok, findTokens_tok hw hwne, List.filter_cons]
        simp
    · have hpre2 : ((n ++ ['}']).isPrefixOf (w ++ '}' :: rest)) = false := by
        rw [Bool.eq_false_iff]
        intro hcon
        exact hnw ((token_prefix_iff n w rest (fun c hcc => (hn c hcc).2)
          (fun c hcc => (hw c hcc).2)).mp hcon)
      have hpre : ('{' :: (n ++ ['}'])).isPrefixOf ('{' :: (w ++ '}' :: rest)) = false := by
        simp only [List.isPrefixOf, hpre2, Bool.and_false]
      rw [replaceAll_cons_neg (fun hpair => by
        rw [hpre] at hpair
        exact Bool.noConfusion hpair.2)]
      rw [replaceAll_append_plain w ('}' :: rest) (fun c hcc => (hw c hcc).1)]
      rw [replaceAll_cons_neg (fun hpair => by
        rw [isPrefixOf_cons_false (by decide)] at hpair
        exact Bool.noConfusion hpair.2)]
      constructor
      · exact .tok hwne hw ihWF
      · rw [findTokens_tok hw hwne, findTokens_tok hw hwne, ihTok, List.filter_cons]
        have : w ≠ n := fun hh => hnw hh.symm
        simp [this]

theorem resolveLoop_no_tokens (params : List (String × String)) :
    ∀ (names : List (List Char)) (acc out : List Char),
    WFTemplate acc →
    (∀ n ∈ names, n ≠ [] ∧ ∀ c ∈ n, c ≠ '{' ∧ c ≠ '}') →
    (∀ t ∈ findTokens acc, t ∈ names) →
    resolveLoop params names acc = .ok out →
    findTokens out = []
  | [], acc, out, _, _, hsub, hok => by
    have hae : acc = out := by simpa [resolveLoop] using hok
    subst hae
    rw [List.eq_nil_iff_forall_not_mem]
    intro t ht
    exact absurd (hsub t ht) (by simp)
  | n :: rest, acc, out, hwf, hnames, hsub, hok => by
    rw [resolveLoop] at hok
    by_cases hv : trimString (lookupParam params ⟨n⟩) = ""
    · rw [if_pos hv] at hok
      exact absurd hok (by simp)
    · rw [if_neg hv] at hok
      obtain ⟨hne, hbrace⟩ := hnames n (List.mem_cons_self n rest)
      obtain ⟨hWF2, hTok2⟩ := replaceAll_token hwf hne hbrace (pathEscape_no_braces _)
      refine resolveLoop_no_tokens params rest _ out hWF2
        (fun m hm => hnames m (List.mem_cons_of_mem _ hm)) ?_ hok
      intro t ht
      rw [hTok2] at ht
      obtain ⟨htin, htne⟩ := List.mem_filter.mp ht
      have hmem := hsub t htin
      rcases List.mem_cons.mp hmem with h | h
      · exact absurd h (by simpa using htne)
      · exact h

/-- C7 (amended): if every opening brace in the trimmed template opens a
placeholder with a nonempty brace-free name, then a successful resolution
contains no remaining placeholder token; and an empty or whitespace-only
template always fails with the empty-path error.  (Without the
well-formedness proviso a successful resolution can retain a placeholder:
see the counterexample.) -/
theorem resolvePathTemplate_spec :
    (∀ (t : String) (ps : List (String × String)) (res : String),
        WFTemplate (trimString t).data → ResolvePathTemplate t ps = .ok res →
        findTokens res.data = []) ∧
    (∀ (t : String) (ps : List (String × String)), trimString t = "" →
        ResolvePathTemplate t ps = .error "empty action path") := by
  constructor
  · intro t ps res hwf hok
    rw [ResolvePathTemplate] at hok
    by_cases hemp : trimString t = ""
    · rw [if_pos hemp] at hok
      exact absurd hok (by simp)
    · rw [if_neg hemp] at hok
      split at hok
      next l heq =>
        have hres : res = ⟨l⟩ := (Except.ok.inj hok).symm
        subst hres
        exact resolveLoop_no_tokens ps (findTokens (trimString t).data)
          (trimString t).data l hwf (findTokens_wf_props hwf) (fun _ ht => ht) heq
      next e heq => exact absurd hok (by simp)
  · intro t ps h
    rw [ResolvePathTemplate, if_pos h]

/-- C7 (counterexample): resolving the template `\x7bb\x7d\x7ba\x7bb\x7dx\x7d` with
values for `b` and `a\x7bb` succeeds and returns `v\x7bavx\x7d`, which still
contains the placeholder token `avx` — the claimed token-freedom of
successful results fails on the code. -/
theorem resolvePathTemplate_leftover_token :
    ResolvePathTemplate "\x7bb\x7d\x7ba\x7bb\x7dx\x7d" [("b", "v"), ("a\x7bb", "w")] = .ok "v{avx}" ∧
    findTokens ("v{avx}" : String).data ≠ [] :=
  ⟨by rfl, by decide⟩

/-- Witness for `resolvePathTemplate_spec`: the contacts template resolves to
a token-free path. -/
theorem resolvePathTemplate_spec_witness :
    findTokens ("/api/invoicing/v1/contacts/abc123" : String).data = [] :=
  resolvePathTemplate_spec.1 "/api/invoicing/v1/contacts/{contactId}"
    [("contactId", "abc123")] "/api/invoicing/v1/contacts/abc123"
    (wfTemplate_sound (by decide)) (by rfl)

/-! ## `extractSSRProps` -/

/-- The opening tag of the `ssrPropsPattern` marker. -/
def ssrOpen : List Char :=
  ("<script id=\"ssr-props\" type=\"application/json\">" : String).data

/-- The closing tag of the `ssrPropsPattern` marker. -/
def ssrClose : List Char := ("</script>" : String).data

/-- Index of the leftmost occurrence of `pat` in `hay` (regular-expression
matching is leftmost). -/
def findSub : List Char → List Char → Option Nat
  | [], pat => if pat.isEmpty then some 0 else none
  | c :: rest, pat =>
    if pat.isPrefixOf (c :: rest) then some 0
    else (findSub rest pat).map (· + 1)

/-- The capture of the lazy group `(.*?)` of `ssrPropsPattern`: the bytes
between the first marker opening and the first subsequent closing tag. -/
def extractCore (html : List Char) : Option (List Char) :=
  match findSub html ssrOpen with
  | none => none
  | some i =>
    match findSub (html.drop (i + ssrOpen.length)) ssrClose with
    | none => none
    | some j => some ((html.drop (i + ssrOpen.length)).take j)

/-- `extractSSRProps` from `catalog.go`. -/
def extractSSRProps (html : String) : Except String String :=
  match extractCore html.data with
  | some r => .ok ⟨r⟩
  | none => .error "ssr props payload not found"

theorem findSub_nil (pat : List Char) :
    findSub [] pat = if pat.isEmpty then some 0 else none := rfl

theorem findSub_cons (c : Char) (rest pat : List Char) :
    findSub (c :: rest) pat =
      if pat.isPrefixOf (c :: rest) then some 0 else (findSub rest pat).map (· + 1) := rfl

theorem findSub_isSome_of_occurrence :
    ∀ (a : List Char) {hay pat b : List Char}, hay = a ++ (pat ++ b) →
      (findSub hay pat).isSome = true
  | [], hay, pat, b, heq => by
    rw [List.nil_append] at heq
    subst heq
    cases pat with
    | nil =>
      cases b with
      | nil => rfl
      | cons c rest =>
        rw [List.nil_append, findSub_cons,
          if_pos (show ([] : List Char).isPrefixOf (c :: rest) = true from rfl)]
        rfl
    | cons p ps =>
      rw [List.cons_append, findSub_cons, if_pos (by
        rw [List.isPrefixOf_iff_prefix]
        exact ⟨b, by rw [List.cons_append]⟩)]
      rfl
  | c :: a', hay, pat, b, heq => by
    rw [List.cons_append] at heq
    subst heq
    rw [findSub_cons]
    by_cases hp : pat.isPrefixOf (c :: (a' ++ (pat ++ b))) = true
    · rw [if_pos hp]
      rfl
    · rw [if_neg hp]
      have h2 := findSub_isSome_of_occurrence a' (rfl : a' ++ (pat ++ b) = a' ++ (pat ++ b))
      obtain ⟨i, hi⟩ := Option.isSome_iff_exists.mp h2
      rw [hi]
      rfl

theorem findSub_some_occurrence :
    ∀ (hay : List Char) {pat : List Char} {i : Nat}, findSub hay pat = some i →
      ∃ a b, hay = a ++ (pat ++ b) ∧ a.length = i
  | [], pat, i, h => by
    rw [findSub_nil] at h
    by_cases hp : pat.isEmpty = true
    · rw [if_pos hp] at h
      have hpat : pat = [] := by
        cases pat
        · rfl
        · simp [List.isEmpty] at hp
      subst hpat
      exact ⟨[], [], by simp, by simpa using Option.some.inj h⟩
    · rw [if_neg hp] at h
      exact absurd h (by simp)
  | c :: rest, pat, i, h => by
    rw [findSub_cons] at h
    by_cases hp : pat.isPrefixOf (c :: rest) = true
    · rw [if_pos hp] at h
      obtain ⟨t, ht⟩ := List.isPrefixOf_iff_prefix.mp hp
      exact ⟨[], t, by rw [List.nil_append, ht], by simpa using Option.some.inj h⟩
    · rw [if_neg hp] at h
      cases hrec : findSub rest pat with
      | none => rw [hrec] at h; exact absurd h (by simp)
      | some j =>
        rw [hrec] at h
        obtain ⟨a, b, hab, hlen⟩ := findSub_some_occurrence rest hrec
        refine ⟨c :: a, b, ?_, ?_⟩
        · rw [List.cons_append, hab]
        · have hi : j + 1 = i := by simpa using h
          simp only [List.length_cons]
          omega

theorem findSub_some_min :
    ∀ (hay : List Char) {pat : List Char} {i : Nat}, findSub hay pat = some i →
      ∀ a b, hay = a ++ (pat ++ b) → i ≤ a.length
  | [], pat, i, h => by
    intro a b heq
    rw [findSub_nil] at h
    by_cases hp : pat.isEmpty = true
    · rw [if_pos hp] at h
      have : 0 = i := Option.some.inj h
      omega
    · rw [if_neg hp] at h
      exact absurd h (by simp)
  | c :: rest, pat, i, h => by
    intro a b heq
    rw [findSub_cons] at h
    by_cases hp : pat.isPrefixOf (c :: rest) = true
    · rw [if_pos hp] at h
      have : 0 = i := Option.some.inj h
      omega
    · rw [if_neg hp] at h
      cases a with
      | nil =>
        exfalso
        apply hp
        rw [List.isPrefixOf_iff_prefix]
        rw [List.nil_append] at heq
        exact ⟨b, heq.symm⟩
      | cons c0 a' =>
        rw [List.cons_append] at heq
        injection heq with h1 h2
        cases hrec : findSub rest pat with
        | none => rw [hrec] at h; exact absurd h (by simp)
        | some j =>
          rw [hrec] at h
          have hi : j + 1 = i := by simpa using h
          have hle := findSub_some_min rest hrec a' b h2
          simp only [List.length_cons]
          omega

/-- A bounded prefix check implies that no occurrence starts before `K`. -/
theorem first_occurrence_of_no_earlier {hay pat : List Char} {K : Nat}
    (h : ∀ k ∈ List.range K, pat.isPrefixOf (hay.drop k) = false) :
    ∀ a b, hay = a ++ (pat ++ b) → K ≤ a.length := by
  intro a b heq
  by_contra hlt
  push_neg at hlt
  have hk := h a.length (List.mem_range.mpr hlt)
  rw [heq, List.drop_left] at hk
  have hpre : pat.isPrefixOf (pat ++ b) = true :=
    List.isPrefixOf_iff_prefix.mpr (List.prefix_append pat b)
  rw [hpre] at hk
  exact Bool.noConfusion hk

theorem findSub_eq_of_min :
    ∀ (a : List Char) {hay pat b : List Char}, hay = a ++ (pat ++ b) →
      (∀ a' b', hay = a' ++ (pat ++ b') → a.length ≤ a'.length) →
      findSub hay pat = some a.length
  | [], hay, pat, b, heq, _ => by
    rw [List.nil_append] at heq
    subst heq
    cases pat with
    | nil =>
      cases b with
      | nil => rfl
      | cons c rest =>
        rw [List.nil_append, findSub_cons,
          if_pos (show ([] : List Char).isPrefixOf (c :: rest) = true from rfl)]
        rfl
    | cons p ps =>
      rw [List.cons_append, findSub_cons, if_pos (by
        rw [List.isPrefixOf_iff_prefix]
        exact ⟨b, by rw [List.cons_append]⟩)]
      rfl
  | c :: a', hay, pat, b, heq, hmin => by
    rw [List.cons_append] at heq
    subst heq
    rw [findSub_cons]
    have hp : pat.isPrefixOf (c :: (a' ++ (pat ++ b))) = false := by
      rw [Bool.eq_false_iff]
      intro hcon
      obtain ⟨t, ht⟩ := List.isPrefixOf_iff_prefix.mp hcon
      have := hmin [] t (by rw [List.nil_append, ht])
      simp at this
    rw [if_neg (by rw [hp]; exact Bool.noConfusion)]
    rw [findSub_eq_of_min a' rfl (fun a2 b2 heq2 => by
      have := hmin (c :: a2) b2 (by rw [List.cons_append, heq2])
      simpa using this)]
    rfl

theorem extractCore_eq (html : List Char) {i : Nat}
    (hopen : findSub html ssrOpen = some i) :
    extractCore html =
      match findSub (html.drop (i + ssrOpen.length)) ssrClose with
      | none => none
      | some j => some ((html.drop (i + ssrOpen.length)).take j) := by
  rw [extractCore, hopen]

/-- C8: extraction succeeds exactly when the complete marker (opening tag
followed by a closing tag) occurs in the page; when `pre` ends at the first
opening tag and `mid` ends at the first subsequent closing tag, the result is
exactly `mid`, byte for byte; and a page without the complete marker yields
the not-found error (no partial recovery). -/
theorem extractSSRProps_spec :
    (∀ html : String,
        (∃ r, extractSSRProps html = .ok r) ↔
        (∃ pre mid post : List Char,
          html.data = pre ++ (ssrOpen ++ (mid ++ (ssrClose ++ post))))) ∧
    (∀ pre mid post : List Char,
        (∀ a b, pre ++ (ssrOpen ++ (mid ++ (ssrClose ++ post))) = a ++ (ssrOpen ++ b) →
          pre.length ≤ a.length) →
        (∀ a b, mid ++ (ssrClose ++ post) = a ++ (ssrClose ++ b) →
          mid.length ≤ a.length) →
        extractSSRProps ⟨pre ++ (ssrOpen ++ (mid ++ (ssrClose ++ post)))⟩ = .ok ⟨mid⟩) ∧
    (∀ html : String,
        (¬ ∃ pre mid post : List Char,
          html.data = pre ++ (ssrOpen ++ (mid ++ (ssrClose ++ post)))) →
        extractSSRProps html = .error "ssr props payload not found") := by
  have hcore : ∀ html : List Char,
      (∃ r, extractCore html = some r) ↔
      (∃ pre mid post : List Char,
        html = pre ++ (ssrOpen ++ (mid ++ (ssrClose ++ post)))) := by
    intro html
    constructor
    · rintro ⟨r, hr⟩
      cases hopen : findSub html ssrOpen with
      | none =>
        rw [extractCore, hopen] at hr
        exact Option.noConfusion hr
      | some i =>
        rw [extractCore_eq html hopen] at hr
        cases hclose : findSub (html.drop (i + ssrOpen.length)) ssrClose with
        | none =>
          rw [hclose] at hr
          exact Option.noConfusion hr
        | some j =>
          obtain ⟨a, b, hab, hlen⟩ := findSub_some_occurrence html hopen
          obtain ⟨a2, b2, hab2, _⟩ :=
            findSub_some_occurrence (html.drop (i + ssrOpen.length)) hclose
          refine ⟨a, a2, b2, ?_⟩
          have hdrop : html.drop (i + ssrOpen.length) = b := by
            rw [hab, ← List.append_assoc]
            have hl : i + ssrOpen.length = (a ++ ssrOpen).length := by
              rw [List.length_append, hlen]
            rw [hl, List.drop_left]
          rw [hab, show b = a2 ++ (ssrClose ++ b2) from by rw [← hdrop, hab2]]
    · rintro ⟨pre, mid, post, heq⟩
      have hopen : (findSub html ssrOpen).isSome = true :=
        findSub_isSome_of_occurrence pre heq
      obtain ⟨i, hi⟩ := Option.isSome_iff_exists.mp hopen
      have hile : i ≤ pre.length := findSub_some_min html hi pre _ heq
      have hdecomp : html = (pre ++ (ssrOpen ++ mid)) ++ (ssrClose ++ post) := by
        rw [heq]
        simp [List.append_assoc]
      have hle : i + ssrOpen.length ≤ (pre ++ (ssrOpen ++ mid)).length := by
        simp only [List.length_append]
        omega
      have hafter : html.drop (i + ssrOpen.length) =
          (pre ++ (ssrOpen ++ mid)).drop (i + ssrOpen.length) ++ (ssrClose ++ post) := by
        rw [hdecomp, List.drop_append_of_le_length hle]
      have hclose : (findSub (html.drop (i + ssrOpen.length)) ssrClose).isSome = true :=
        findSub_isSome_of_occurrence ((pre ++ (ssrOpen ++ mid)).drop (i + ssrOpen.length))
          hafter
      obtain ⟨j, hj⟩ := Option.isSome_iff_exists.mp hclose
      refine ⟨(html.drop (i + ssrOpen.length)).take j, ?_⟩
      rw [extractCore_eq html hi, hj]
  refine ⟨?_, ?_, ?_⟩
  · intro html
    rw [show (∃ r, extractSSRProps html = .ok r) ↔
        (∃ r, extractCore html.data = some r) from ?_]
    · exact hcore html.data
    · constructor
      · rintro ⟨r, hr⟩
        rw [extractSSRProps] at hr
        cases hcc : extractCore html.data with
        | none => rw [hcc] at hr; exact absurd hr (by simp)
        | some r0 => exact ⟨r0, rfl⟩
      · rintro ⟨r, hr⟩
        refine ⟨⟨r⟩, ?_⟩
        rw [extractSSRProps, hr]
  · intro pre mid post hmin1 hmin2
    have hdata :
        (⟨pre ++ (ssrOpen ++ (mid ++ (ssrClose ++ post)))⟩ : String).data =
          pre ++ (ssrOpen ++ (mid ++ (ssrClose ++ post))) := rfl
    have hopen : findSub (pre ++ (ssrOpen ++ (mid ++ (ssrClose ++ post)))) ssrOpen =
        some pre.length :=
      findSub_eq_of_min pre rfl hmin1
    have hdrop : (pre ++ (ssrOpen ++ (mid ++ (ssrClose ++ post)))).drop
        (pre.length + ssrOpen.length) = mid ++ (ssrClose ++ post) := by
      rw [show (pre ++ (ssrOpen ++ (mid ++ (ssrClose ++ post))) : List Char) =
        (pre ++ ssrOpen) ++ (mid ++ (ssrClose ++ post)) from by simp [List.append_assoc]]
      rw [show pre.length + ssrOpen.length = (pre ++ ssrOpen).length from
        (List.length_append _ _).symm]
      rw [List.drop_left]
    have hclose : findSub (mid ++ (ssrClose ++ post)) ssrClose = some mid.length :=
      findSub_eq_of_min mid rfl hmin2
    rw [extractSSRProps, hdata, extractCore_eq _ hopen, hdrop, hclose]
    show Except.ok (⟨(mid ++ (ssrClose ++ post)).take mid.length⟩ : String) = Except.ok ⟨mid⟩
    rw [show (mid ++ (ssrClose ++ post)).take mid.length = mid from List.take_left _ _]
  · intro html hno
    have hnone : extractCore html.data = none := by
      cases hcc : extractCore html.data with
      | none => rfl
      | some r => exact absurd ((hcore html.data).mp ⟨r, hcc⟩) hno
    rw [extractSSRProps, hnone]

/-- Witness for `extractSSRProps_spec`: the documentation-page example with a
single marker extracts exactly the JSON payload between the tags. -/
theorem extractSSRProps_spec_witness :
    extractSSRProps ⟨("<html><body>" : String).data ++ (ssrOpen ++
        (("\x7b\"document\":\x7b\x7d\x7d" : String).data ++
          (ssrClose ++ ("</body>" : String).data)))⟩ =
      .ok ⟨("\x7b\"document\":\x7b\x7d\x7d" : String).data⟩ :=
  extractSSRProps_spec.2.1 ("<html><body>" : String).data
    ("\x7b\"document\":\x7b\x7d\x7d" : String).data ("</body>" : String).data
    (first_occurrence_of_no_earlier (by decide))
    (first_occurrence_of_no_earlier (by decide))

/-! ## Request-body decoding

The body-field decoder (`ActionBodyField`, the `Fields` member of
`ActionRequestBody`, `ValidateBodyParameters`) is absent from the checked-out
sources — only its tests and the spec describe it — so the definitions below
are modelled from the spec (§4.2 step 7 and §4.6), alongside the parts
(`required` flag, sorted content types) that the source's `decodeRequestBody`
does implement. -/

mutual
/-- Modelled from the spec: an OpenAPI-like request-body schema node as the
absent field decoder consumes it — `type`, the `required` name list at this
nesting level, the `properties`, and the array `items` schema. -/
inductive BodySchema where
  | mk (type : String) (required : List String) (properties : BodyProps)
      (items : Option BodySchema)

/-- The property list of a `BodySchema` (name/schema pairs). -/
inductive BodyProps where
  | nil
  | cons (name : String) (schema : BodySchema) (rest : BodyProps)
end

def BodySchema.type : BodySchema → String | .mk t _ _ _ => t
def BodySchema.required : BodySchema → List String | .mk _ r _ _ => r
def BodySchema.properties : BodySchema → BodyProps | .mk _ _ p _ => p
def BodySchema.items : BodySchema → Option BodySchema | .mk _ _ _ i => i

/-- The `schemaType` rendering on body schemas (arrays rendered as
`array[elementType]`). -/
def bodySchemaType : BodySchema → String
  | .mk t _ _ items =>
    let kind := trimString t
    if kind = "" then ""
    else if kind = "array" then
      match items with
      | some it =>
        (let itemType := bodySchemaType it
         if itemType = "" then kind else "array[" ++ itemType ++ "]")
      | none => kind
    else kind

/-- The ordering of body fields: by field name. -/
def fieldOrd (f g : ActionBodyField) : Prop := strLe f.name g.name = true

instance : DecidableRel fieldOrd := fun _ _ => by unfold fieldOrd; infer_instance

instance : IsTotal ActionBodyField fieldOrd := ⟨fun f g => strLe_total f.name g.name⟩

instance : IsTrans ActionBodyField fieldOrd := ⟨fun _ _ _ => strLe_trans⟩

mutual
/-- Modelled from the spec: the properties of a schema node decoded into
`ActionBodyField` entries, sorted by field name. -/
def decodeFields : BodySchema → List ActionBodyField
  | .mk _ req props _ => List.insertionSort fieldOrd (decodeProps req props)

/-- One pass over the property list (`req` is the `required` name list of
the enclosing level). -/
def decodeProps (req : List String) : BodyProps → List ActionBodyField
  | .nil => []
  | .cons name ps rest =>
    ActionBodyField.mk name (req.contains name) (bodySchemaType ps) (decodeItem ps)
      :: decodeProps req rest

/-- The nested `Item` of a field: populated for `object` fields and for
`array` fields whose element type is `object`, by the same recursive rule. -/
def decodeItem : BodySchema → Option ActionBodyItem
  | .mk t req props items =>
    if trimString t = "object" then
      some (.mk "object" (List.insertionSort fieldOrd (decodeProps req props)))
    else
      match items with
      | some it =>
        if trimString t = "array" ∧ trimString it.type = "object" then
          some (.mk "object" (decodeFields it))
        else none
      | none => none
end

/-- `requestBodySpec` from `catalog.go`, with each content type's raw schema
already decoded into a `BodySchema` (`none` when the media entry has no
usable schema). -/
structure RequestBodySpec where
  required : Bool
  content : List (String × Option BodySchema)

/-- First content entry of a given media type. -/
def lookupContent (k : String) : List (String × Option BodySchema) → Option (Option BodySchema)
  | [] => none
  | (k0, v) :: rest => if k0 = k then some v else lookupContent k rest

/-- `decodeRequestBody` from `catalog.go` (required flag and sorted content
types), extended with the spec-modelled field decoding: the
`application/json` content schema's properties become the `fields`. -/
def decodeRequestBody : Option RequestBodySpec → Option ActionRequestBody
  | none => none
  | some raw =>
    some { required := raw.required
           contentTypes := sortStrings (raw.content.map Prod.fst)
           fields :=
             match lookupContent "application/json" raw.content with
             | some (some schema) => decodeFields schema
             | _ => [] }

/-! ## Body validation -/

/-- Modelled from the spec: a decoded generic JSON value (§4.6 decodes the
payload into a mapping of field name to value; numbers carry their rational
value so integrality is observable). -/
inductive JsonValue where
  | null
  | bool (b : Bool)
  | num (q : ℚ)
  | str (s : String)
  | arr (elems : List JsonValue)
  | obj (fields : List (String × JsonValue))

/-- The kinds of validation issues of §4.6. -/
inductive IssueKind where
  | missingField
  | unknownField
  | typeMismatch
deriving DecidableEq

/-- One validation issue: its kind and the field it concerns. -/
structure Issue where
  kind : IssueKind
  fieldName : String
deriving DecidableEq

/-- Modelled from the spec: §4.6 type checking — the value's runtime JSON
kind against the declared type tag; quoted numbers are not coerced to
`integer`/`number`; `integer` requires an integral numeric value; the
`array` family covers `array` and `array[T]` tags; unknown tags are not
checked. -/
def jsonKindMatches (declared : String) (v : JsonValue) : Bool :=
  if declared = "string" then (match v with | .str _ => true | _ => false)
  else if declared = "integer" then
    (match v with | .num q => q.den = 1 | _ => false)
  else if declared = "number" then (match v with | .num _ => true | _ => false)
  else if declared = "boolean" then (match v with | .bool _ => true | _ => false)
  else if declared = "object" then (match v with | .obj _ => true | _ => false)
  else if ("array" : String).data.isPrefixOf declared.data then
    (match v with | .arr _ => true | _ => false)
  else true

/-- Modelled from the spec: §4.6 `ValidateBodyParameters` — for each declared
top-level field, a missing required field or a type mismatch yields an
issue; every payload key not declared in the schema yields an unknown-field
issue.  The function is total: it always returns a (possibly empty) list. -/
def ValidateBodyParameters (action : Action) (body : List (String × JsonValue)) :
    List Issue :=
  let fields := match action.requestBody with
    | some rb => rb.fields
    | none => []
  let declIssues := fields.foldr (fun f acc =>
    match body.lookup f.name with
    | none => if f.required then ⟨.missingField, f.name⟩ :: acc else acc
    | some v => if jsonKindMatches f.type v then acc else ⟨.typeMismatch, f.name⟩ :: acc) []
  let unknownIssues := (body.filter (fun kv => fields.all (fun f => f.name ≠ kv.1))).map
    (fun kv => ⟨.unknownField, kv.1⟩)
  declIssues ++ unknownIssues

/-- The action of the validation example: a required `name : string` and an
optional `discount : integer`. -/
def validationSampleAction : Action :=
  { id := "invoice.create-contact", api := "", operationId := "", method := "POST",
    path := "/x", summary := "", description := "", parameters := [],
    requestBody := some ⟨true, ["application/json"],
      [.mk "name" true "string" none, .mk "discount" false "integer" none]⟩ }

/-- C2: against a schema requiring `name : string` with optional
`discount : integer`, the payload `{name: Acme, discount: 10}` validates
with zero issues, and the payload `{nam: Acme, discount: "10"}` yields
exactly three issues — missing `name`, unknown `nam`, and a type mismatch on
`discount` (the quoted "10" is not coerced); validation is a total function
returning an issue list, never an abort. -/
theorem validateBodyParameters_example :
    ValidateBodyParameters validationSampleAction
        [("name", .str "Acme"), ("discount", .num 10)] = [] ∧
    (ValidateBodyParameters validationSampleAction
        [("nam", .str "Acme"), ("discount", .str "10")]).length = 3 ∧
    (⟨.missingField, "name"⟩ : Issue) ∈ ValidateBodyParameters validationSampleAction
        [("nam", .str "Acme"), ("discount", .str "10")] ∧
    (⟨.unknownField, "nam"⟩ : Issue) ∈ ValidateBodyParameters validationSampleAction
        [("nam", .str "Acme"), ("discount", .str "10")] ∧
    (⟨.typeMismatch, "discount"⟩ : Issue) ∈ ValidateBodyParameters validationSampleAction
        [("nam", .str "Acme"), ("discount", .str "10")] := by
  refine ⟨?_, ?_, ?_, ?_, ?_⟩ <;> decide

/-- The request-body schema of the decoding example: `name : string`
(required), `discount : integer`, and `items : array` of objects with two
properties `sku : string` (required) and `qty : number`. -/
def sampleBodySchema : BodySchema :=
  .mk "object" ["name"]
    (.cons "name" (.mk "string" [] .nil none)
      (.cons "discount" (.mk "integer" [] .nil none)
        (.cons "items"
          (.mk "array" [] .nil
            (some (.mk "object" ["sku"]
              (.cons "sku" (.mk "string" [] .nil none)
                (.cons "qty" (.mk "number" [] .nil none) .nil))
              none)))
          .nil)))
    none

theorem decodeProps_field_shape {req : List String} :
    ∀ (props : BodyProps) (f : ActionBodyField), f ∈ decodeProps req props →
      ∃ name ps, f = ActionBodyField.mk name (req.contains name) (bodySchemaType ps)
        (decodeItem ps)
  | .nil, f, hf => by simp [decodeProps] at hf
  | .cons name ps rest, f, hf => by
    rw [decodeProps] at hf
    rcases List.mem_cons.mp hf with h | h
    · exact ⟨name, ps, h⟩
    · exact decodeProps_field_shape rest f h

theorem bodySchemaType_object {ps : BodySchema} (h : bodySchemaType ps = "object") :
    trimString ps.type = "object" := by
  obtain ⟨t, req, props, items⟩ := ps
  rw [bodySchemaType.eq_def] at h
  simp only at h
  by_cases h1 : trimString t = ""
  · rw [if_pos h1] at h
    exact absurd h (by decide)
  · rw [if_neg h1] at h
    by_cases h2 : trimString t = "array"
    · rw [if_pos h2] at h
      exfalso
      cases items with
      | none =>
        rw [h2] at h
        exact absurd h (by decide)
      | some it =>
        by_cases h3 : bodySchemaType it = ""
        · simp only [h3, if_pos rfl, h2] at h
          exact absurd h (by decide)
        · simp only [if_neg h3] at h
          have := congrArg String.data h
          rw [String.data_append, String.data_append] at this
          have h4 : ("array[" : String).data = 'a' :: "rray[".data := rfl
          have h5 : ("object" : String).data = 'o' :: "bject".data := rfl
          rw [h4, h5] at this
          simp at this
    · rw [if_neg h2] at h
      exact h ▸ rfl

theorem decodeItem_isSome_of_object {ps : BodySchema}
    (h : trimString ps.type = "object") : (decodeItem ps).isSome = true := by
  obtain ⟨t, req, props, items⟩ := ps
  have h' : trimString t = "object" := h
  rw [decodeItem.eq_def]
  simp only
  rw [if_pos h']
  rfl

/-- C3: for every operation carrying a request body, the decoded record
keeps the source's required flag, lists the declared content types in sorted
order, and carries the body fields sorted by field name with every
`object`-typed field holding a nested `Item`; on the example schema the
`items` field decodes to type `array[object]` with a nested `Item` of two
fields. -/
theorem decodeRequestBody_spec :
    (∀ raw : RequestBodySpec, ∃ rb, decodeRequestBody (some raw) = some rb ∧
      rb.required = raw.required ∧
      List.Pairwise strOrd rb.contentTypes ∧
      List.Perm rb.contentTypes (raw.content.map Prod.fst) ∧
      List.Pairwise fieldOrd rb.fields ∧
      (∀ f ∈ rb.fields, f.type = "object" → f.item.isSome = true)) ∧
    decodeRequestBody (some ⟨true, [("application/json", some sampleBodySchema)]⟩) =
      some ⟨true, ["application/json"],
        [.mk "discount" false "integer" none,
         .mk "items" false "array[object]"
           (some (.mk "object"
             [.mk "qty" false "number" none, .mk "sku" true "string" none])),
         .mk "name" true "string" none]⟩ := by
  constructor
  · intro raw
    refine ⟨_, rfl, rfl, ?_, ?_, ?_, ?_⟩
    · exact List.sorted_insertionSort strOrd _
    · exact List.perm_insertionSort strOrd _
    · simp only
      cases hlk : lookupContent "application/json" raw.content with
      | none => exact List.Pairwise.nil
      | some sc =>
        cases sc with
        | none => exact List.Pairwise.nil
        | some schema =>
          obtain ⟨t, req, props, items⟩ := schema
          show List.Pairwise fieldOrd (decodeFields (BodySchema.mk t req props items))
          rw [decodeFields.eq_def]
          exact List.sorted_insertionSort fieldOrd _
    · intro f hf hobj
      simp only at hf
      rcases hlk : lookupContent "application/json" raw.content with _ | (_ | schema) <;>
        rw [hlk] at hf
      · simp at hf
      · simp at hf
      · obtain ⟨t, req, props, items⟩ := schema
        have hf1 : f ∈ decodeFields (BodySchema.mk t req props items) := hf
        rw [decodeFields.eq_def] at hf1
        have hf2 := (List.perm_insertionSort fieldOrd _).mem_iff.mp hf1
        obtain ⟨name, ps, hfeq⟩ := decodeProps_field_shape props f hf2
        subst hfeq
        simp only [ActionBodyField.item, ActionBodyField.type] at hobj ⊢
        exact decodeItem_isSome_of_object (bodySchemaType_object hobj)
  · rfl

/-- Witness for `decodeRequestBody_spec`: a decoded `object`-typed field
carries a nested `Item`. -/
theorem decodeRequestBody_spec_witness :
    (ActionBodyField.mk "child" false "object"
      (some (ActionBodyItem.mk "object" []))).item.isSome = true := by
  obtain ⟨rb, hrb, _, _, _, _, hobj⟩ := decodeRequestBody_spec.1
    ⟨false, [("application/json",
      some (.mk "object" [] (.cons "child" (.mk "object" [] .nil none) .nil) none))]⟩
  have hval : rb = ⟨false, ["application/json"],
      [.mk "child" false "object" (some (.mk "object" []))]⟩ := by
    have : decodeRequestBody (some ⟨false, [("application/json",
        some (.mk "object" [] (.cons "child" (.mk "object" [] .nil none) .nil) none))]⟩) =
      some ⟨false, ["application/json"],
        [.mk "child" false "object" (some (.mk "object" []))]⟩ := rfl
    rw [this] at hrb
    exact (Option.some.inj hrb).symm
  subst hval
  exact hobj _ (List.mem_singleton.mpr rfl) rfl

end HoldedCatalog
